import Mathlib

/-!
Verification of the tagheap package (an interface-free binary-heap API over
annotated record types) against its natural-language specification.

The embedding models the current source of the package: the constructor
`New(key, ps)` with its struct-tag scan, the unexported `tagHeap` methods
`Len`, `Less`, `Swap`, `Push`, `Pop`, and the exported `Push`, `Pop`,
`Remove` wrappers, together with the standard-library `container/heap`
driver (`heap.Init`, `heap.Push`, `heap.Pop`, `heap.Remove` and the
internal `up` and `down` sift routines) that the spec treats as a supplied
algorithm with fixed semantics.

Records are handled by reference in Go (the backing slice holds pointers to
structs, and the index field is written through those pointers), so the
model carries an explicit pointer store: a pointer is a `Nat`, the store
maps every pointer to its record, and the backing slice is a list of
pointers.  A record has the key field, the optional index field, and one
representative unannotated field `other` used to observe frame effects.
The key type is any linear order, covering the string, signed-integer and
unsigned-integer comparators the constructor dispatches on.
-/

namespace Tagheap

/-- Model of the heap node struct: `key` is the field tagged min or max,
`idx` is the field tagged index (Go type `int`, modelled as `Int`), and
`other` stands for all remaining, unannotated fields. -/
structure Rec (K : Type) where
  key : K
  idx : Int
  other : Int

/-- The part of the descriptor built by `newTagHeap` that the running heap
methods consult: the direction flag `minHeap` and whether an index field
was configured (`indexFieldIndex >= 0` in the source). -/
structure Cfg where
  minHeap : Bool
  hasIndex : Bool

/-- State of one heap: the pointer store (memory seen through `reflect`)
and the backing slice `s.s` of pointers to structs. -/
structure HState (K : Type) where
  store : Nat → Rec K
  slice : List Nat

variable {K : Type} [LinearOrder K]

/-- Method `tagHeap.Len`: length of the backing slice. -/
def hLen (st : HState K) : Nat := st.slice.length

/-- Pointer stored at offset `i` of the backing slice (`s.s.Index(i)`). -/
def ptrAt (st : HState K) (i : Nat) : Nat := st.slice.getD i 0

/-- Record at offset `i` of the backing slice (`s.s.Index(i).Elem()`). -/
def recAt (st : HState K) (i : Nat) : Rec K := st.store (ptrAt st i)

/-- Key field of the record at offset `i`
(`s.s.Index(i).Elem().Field(s.keyFieldIndex)`). -/
def keyAtIdx (st : HState K) (i : Nat) : K := (recAt st i).key

/-- Comparator semantics of `tagHeap.Less`: the dispatched comparator
(`lessString`, `lessInt`, `lessUint`) is the strict order of the key type,
and the method returns `s.less(ki, kj) == s.minHeap`. -/
def lessB (c : Cfg) (a b : K) : Bool := decide (a < b) == c.minHeap

/-- Method `tagHeap.Less i j` on the state. -/
def hLess (c : Cfg) (st : HState K) (i j : Nat) : Bool :=
  lessB c (keyAtIdx st i) (keyAtIdx st j)

/-- Write `v` into the index field of the record that pointer `p` refers to
(`...Field(s.indexFieldIndex).SetInt(v)`); all other fields and all other
records are untouched. -/
def setIdx (st : HState K) (p : Nat) (v : Int) : HState K :=
  ⟨fun q => if q = p then { st.store p with idx := v } else st.store q, st.slice⟩

/-- Method `tagHeap.Swap i j`: exchange the slice entries through the
scratch slot `swapTemp`, then, when an index field is configured, set the
index fields of the two new occupants to their new offsets (reading
`s.s.Index(i)` and `s.s.Index(j)` after the exchange, in that order). -/
def hSwap (c : Cfg) (st : HState K) (i j : Nat) : HState K :=
  let st1 : HState K := ⟨st.store, (st.slice.set i (ptrAt st j)).set j (ptrAt st i)⟩
  if c.hasIndex then
    setIdx (setIdx st1 (ptrAt st1 i) (Int.ofNat i)) (ptrAt st1 j) (Int.ofNat j)
  else st1

/-- Method `tagHeap.Push u`: when an index field is configured, first set
the pushed record's index field to the current length, then append the
pointer to the backing slice. -/
def hPushInner (c : Cfg) (st : HState K) (p : Nat) : HState K :=
  let st1 := if c.hasIndex then setIdx st p (Int.ofNat (hLen st)) else st
  ⟨st1.store, st1.slice ++ [p]⟩

/-- Method `tagHeap.Pop`: on an empty slice return `nil`; otherwise read
the last entry, shrink the slice by one and return that entry. -/
def hPopInner (st : HState K) : HState K × Option Nat :=
  if hLen st = 0 then (st, none)
  else (⟨st.store, st.slice.take (hLen st - 1)⟩, some (ptrAt st (hLen st - 1)))

/-- Loop body of the sift routine `down(h, i0, n)` of `container/heap`,
written with an explicit fuel argument so that the recursion is structural
(the loop index strictly increases and is bounded by `n`, so `n - i` fuel
always suffices; see `heapDown`).  Each iteration computes the better
child `j` (preferring the right child `2*i+2` only when it is in range and
`Less` than the left child `2*i+1`) and then descends while `Less(j, i)`;
the two branches below spell out the two values `j` can take. -/
def heapDownGo (c : Cfg) : Nat → HState K → Nat → Nat → HState K × Nat
  | 0, st, i, _ => (st, i)
  | fuel+1, st, i, n =>
    if 2*i+1 < n then
      if 2*i+2 < n ∧ hLess c st (2*i+2) (2*i+1) = true then
        if hLess c st (2*i+2) i then heapDownGo c fuel (hSwap c st i (2*i+2)) (2*i+2) n
        else (st, i)
      else
        if hLess c st (2*i+1) i then heapDownGo c fuel (hSwap c st i (2*i+1)) (2*i+1) n
        else (st, i)
    else (st, i)

/-- Sift routine `down(h, i, n)` of `container/heap`.  Returns the final
state together with the final node index; the Go function returns
`i > i0`, recoverable as a comparison of the returned index with the
argument. -/
def heapDown (c : Cfg) (st : HState K) (i n : Nat) : HState K × Nat :=
  heapDownGo c (n - i) st i n

/-- Loop body of the sift routine `up(h, j)` of `container/heap`, with
explicit fuel (the loop index strictly decreases, so `j` iterations always
suffice; see `heapUp`): swap with the parent `(j-1)/2` while the current
node compares `Less` than it.  Note Go's `(0-1)/2` is `0` in truncating
`int` division, exactly as `(0-1)/2` is `0` in `Nat` subtraction, so the
`i == j` stop test coincides. -/
def heapUpGo (c : Cfg) : Nat → HState K → Nat → HState K
  | 0, st, _ => st
  | fuel+1, st, j =>
    if (j-1)/2 = j ∨ ¬ hLess c st j ((j-1)/2) = true then st
    else heapUpGo c fuel (hSwap c st ((j-1)/2) j) ((j-1)/2)

/-- Sift routine `up(h, j)` of `container/heap`. -/
def heapUp (c : Cfg) (st : HState K) (j : Nat) : HState K :=
  heapUpGo c j st j

/-- Loop of `heap.Init`: run `down` at indices `k-1`, `k-2`, ..., `0`. -/
def heapInitAux (c : Cfg) (st : HState K) (k n : Nat) : HState K :=
  match k with
  | 0 => st
  | k+1 => heapInitAux c (heapDown c st k n).1 k n

/-- Driver `heap.Init(h)`: heapify by calling `down` at `n/2 - 1`, ..., `0`
where `n` is the current length. -/
def heapInit (c : Cfg) (st : HState K) : HState K :=
  heapInitAux c st (hLen st / 2) (hLen st)

/-- Driver `heap.Push(h, x)`: `h.Push(x)` then `up(h, h.Len()-1)`. -/
def heapPushOp (c : Cfg) (st : HState K) (p : Nat) : HState K :=
  let st1 := hPushInner c st p
  heapUp c st1 (hLen st1 - 1)

/-- Argument of the exported `Push` and `Remove`: either a pointer to a
struct of the record type the container was built for, or a value of any
other dynamic type (which fails the `reflect` type test). -/
inductive GoVal where
  | recArg (p : Nat)
  | otherArg (t : String)

/-- Exported `TagHeap.Push`: panic when the argument is not assignable to
the pointer-to-struct type the container was built for, before any storage
is touched; otherwise run `heap.Push`. -/
def pushExported (c : Cfg) (st : HState K) (u : GoVal) : Except String (HState K) :=
  match u with
  | .otherArg _ => .error "invalid type for push argument"
  | .recArg p => .ok (heapPushOp c st p)

/-- Exported `TagHeap.Pop`, which is `heap.Pop(h)`: compute `n = Len - 1`,
`Swap(0, n)`, `down(0, n)`, then return `h.Pop()`.  On an empty heap `n` is
`-1` and the `Swap` indexes the empty reflected slice out of range, so the
call panics (as the method's documentation states); modelled as an error
produced before any storage mutation. -/
def popExported (c : Cfg) (st : HState K) : Except String (HState K × Option Nat) :=
  if hLen st = 0 then .error "panic: index out of range"
  else
    let n := hLen st - 1
    let st1 := hSwap c st 0 n
    let st2 := (heapDown c st1 0 n).1
    .ok (hPopInner st2)

/-- Exported `TagHeap.Remove`: panic when no index field was configured;
panic when the argument is not convertible to the record pointer type;
otherwise read the argument's index field `i` and run `heap.Remove(h, i)`,
which is: `n = Len - 1`; if `n != i` then `Swap(i, n)`, then `down(i, n)`,
and `up(i)` when `down` did not move the node; finally return `h.Pop()`.
When `i` is outside the backing slice the `Swap` indexes out of range and
the call panics; modelled as an error. -/
def removeExported (c : Cfg) (st : HState K) (u : GoVal) :
    Except String (HState K × Option Nat) :=
  if c.hasIndex = false then .error "remove index field not defined"
  else
    match u with
    | .otherArg _ => .error "invalid type for remove argument"
    | .recArg p =>
      let i : Int := (st.store p).idx
      if i = (hLen st : Int) - 1 then .ok (hPopInner st)
      else if 0 ≤ i ∧ i < (hLen st : Int) then
        let iN := i.toNat
        let n := hLen st - 1
        let st1 := hSwap c st iN n
        let d := heapDown c st1 iN n
        let st2 := if iN < d.2 then d.1 else heapUp c d.1 iN
        .ok (hPopInner st2)
      else .error "panic: index out of range"

/-! ### Constructor tag scan

Model of the struct-tag validation loop of `newTagHeap(key, ps)`.  The
caller's struct type is a list of fields; for each field we record the
value its tag gives for the namespace `key` passed to `New` (the result of
`sf.Tag.Get(key)`, empty when the field carries no such tag), the
`reflect` kind of its type, and its `PkgPath` (nonempty exactly for
unexported fields). -/

/-- Subset of `reflect.Kind` values distinguished by the constructor's
checks: `k == String`, `Int <= k <= Int64`, `Uint <= k <= Uint64`
(`Uintptr` lies outside that range), `Float64 || Float32`, and the exact
`k != Int` test on the index field; `kother` stands for every remaining
kind. -/
inductive RKind where
  | kbool | kint | kint8 | kint16 | kint32 | kint64
  | kuint | kuint8 | kuint16 | kuint32 | kuint64 | kuintptr
  | kfloat32 | kfloat64 | kstring | kother
deriving DecidableEq

/-- Test `Int <= k && k <= Int64` on `reflect.Kind`. -/
def isIntKind : RKind → Bool
  | .kint | .kint8 | .kint16 | .kint32 | .kint64 => true
  | _ => false

/-- Test `Uint <= k && k <= Uint64` on `reflect.Kind`. -/
def isUintKind : RKind → Bool
  | .kuint | .kuint8 | .kuint16 | .kuint32 | .kuint64 => true
  | _ => false

/-- One struct field as the scan sees it. -/
structure SField where
  tag : String
  kind : RKind
  pkgPath : String  -- the source tests unexportedness as PkgPath greater than the
                    -- empty string, which for strings is exactly nonemptiness
deriving DecidableEq

/-- Which comparator `s.less` was bound to. -/
inductive CmpSel where
  | cstring | cint | cuint | cfloat
deriving DecidableEq

/-- Comparator dispatch of the key-field `switch`: string, signed-integer
range, unsigned-integer range, float kinds, in source order; any other
kind is rejected. -/
def kindCmp (k : RKind) : Option CmpSel :=
  if k = .kstring then some .cstring
  else if isIntKind k then some .cint
  else if isUintKind k then some .cuint
  else if k = .kfloat64 ∨ k = .kfloat32 then some .cfloat
  else none

/-- Mutable fields of the `tagHeap` value the scan fills in
(`keyFieldIndex` and `indexFieldIndex` start at `-1`). -/
structure ScanAcc where
  minHeap : Bool
  keyFieldIndex : Int
  indexFieldIndex : Int
  cmp : Option CmpSel
deriving DecidableEq

/-- The field loop of `newTagHeap`: switch on the tag value of each field,
validating and recording key and index fields, with each violation a
distinct construction-time error. -/
def scanLoop : ScanAcc → Nat → List SField → Except String ScanAcc
  | acc, _, [] => .ok acc
  | acc, i, f :: rest =>
    if f.tag = "" then scanLoop acc (i+1) rest
    else if f.tag = "min" ∨ f.tag = "max" then
      if ¬ f.pkgPath = "" then .error "key field must be exported"
      else if 0 ≤ acc.keyFieldIndex then .error "struct tags specify multiple keys."
      else
        match kindCmp f.kind with
        | none => .error "key field must be a string, integer, or floating point type"
        | some sel =>
          scanLoop
            { acc with
              keyFieldIndex := Int.ofNat i
              cmp := some sel
              minHeap := if f.tag = "min" then true else acc.minHeap }
            (i+1) rest
    else if f.tag = "index" then
      if ¬ f.pkgPath = "" then .error "index field must be exported"
      else if 0 ≤ acc.indexFieldIndex then .error "struct tags specify multiple indexes"
      else if ¬ f.kind = .kint then .error "index field must have type int"
      else scanLoop { acc with indexFieldIndex := Int.ofNat i } (i+1) rest
    else .error ("invalid struct tag " ++ f.tag)

/-- Tag validation of `newTagHeap`: run the field loop from the initial
accumulator, then fail when no key field was found.  On success the
constructor goes on to call `heap.Init` (see `heapInit`); construction
returns either an error and no container, or a fully built container. -/
def newScan (fs : List SField) : Except String ScanAcc :=
  match scanLoop ⟨false, -1, -1, none⟩ 0 fs with
  | .error e => .error e
  | .ok acc =>
    if acc.keyFieldIndex < 0 then .error "struct must indicate key field" else .ok acc

/-! ### Heap order, invariants and reachable states -/

/-- Boolean form of "a is not worse than b" under the configured
direction: `a <= b` for a min-heap, `b <= a` for a max-heap. -/
def nwB (c : Cfg) (a b : K) : Bool :=
  if c.minHeap then decide (a ≤ b) else decide (b ≤ a)

/-- The record at the parent offset is not worse than the one at `j`. -/
def nwAt (c : Cfg) (st : HState K) (i j : Nat) : Prop :=
  nwB c (keyAtIdx st i) (keyAtIdx st j) = true

/-- Binary-heap property of the first `n` offsets of the backing slice:
no non-root node is strictly better than its parent. -/
def heapInv (c : Cfg) (st : HState K) (n : Nat) : Prop :=
  ∀ j, j < n → 0 < j → nwAt c st ((j-1)/2) j

/-- Position-field consistency: when an index field is configured, the
record at every offset of the backing slice carries that offset in its
index field. -/
def idxOK (c : Cfg) (st : HState K) : Prop :=
  c.hasIndex = true → ∀ i, i < hLen st → (recAt st i).idx = Int.ofNat i

/-- Well-formed storage for index tracking: the slice holds pairwise
distinct pointers (Go records are pushed by reference, one handle each)
and the index fields are consistent. -/
def WFidx (c : Cfg) (st : HState K) : Prop :=
  st.slice.Nodup ∧ idxOK c st

/-- States reachable from `st` by completed exported calls: any `Push`
with an argument of the right type, and any `Pop` or `Remove` call that
returns normally (a panicking call never returns). -/
inductive Reach (c : Cfg) : HState K → HState K → Prop where
  | refl (st : HState K) : Reach c st st
  | push (st st' : HState K) (p : Nat) :
      Reach c st st' → Reach c st (heapPushOp c st' p)
  | pop (st st' st'' : HState K) (r : Option Nat) :
      Reach c st st' → popExported c st' = .ok (st'', r) → Reach c st st''
  | rem (st st' st'' : HState K) (u : GoVal) (r : Option Nat) :
      Reach c st st' → removeExported c st' u = .ok (st'', r) → Reach c st st''

/-- States reachable by completed exported calls whose pushes use fresh
record handles (a record not currently on the heap), the caller contract
for a container with an index field. -/
inductive ReachF (c : Cfg) : HState K → HState K → Prop where
  | refl (st : HState K) : ReachF c st st
  | push (st st' : HState K) (p : Nat) :
      ReachF c st st' → p ∉ st'.slice → ReachF c st (heapPushOp c st' p)
  | pop (st st' st'' : HState K) (r : Option Nat) :
      ReachF c st st' → popExported c st' = .ok (st'', r) → ReachF c st st''
  | rem (st st' st'' : HState K) (u : GoVal) (r : Option Nat) :
      ReachF c st st' → removeExported c st' u = .ok (st'', r) → ReachF c st st''

/-- Sequence of keys returned by `k` consecutive exported `Pop` calls
(read through the returned record handle); a panicking call ends the
sequence. -/
def popSeq (c : Cfg) (st : HState K) : Nat → List K
  | 0 => []
  | k+1 =>
    match popExported c st with
    | .ok (st', some p) => (st'.store p).key :: popSeq c st' k
    | .ok (_, none) => []
    | .error _ => []

/-- Push a list of record handles in order through the exported `Push`. -/
def pushSeq (c : Cfg) (st : HState K) (ps : List Nat) : HState K :=
  ps.foldl (heapPushOp c) st

/-- Number of key-field annotations (`min` or `max` tag values) the given
namespace sees on the struct. -/
def keyTagCount (fs : List SField) : Nat :=
  (fs.filter (fun f => f.tag == "min" || f.tag == "max")).length

/-! ### Basic lemmas about the storage primitives -/

theorem hLen_setIdx (st : HState K) (p : Nat) (v : Int) :
    hLen (setIdx st p v) = hLen st := rfl

theorem hLen_hSwap (c : Cfg) (st : HState K) (i j : Nat) :
    hLen (hSwap c st i j) = hLen st := by
  unfold hSwap
  cases hc : c.hasIndex <;>
    simp [hLen, setIdx]

theorem hLen_heapDownGo (c : Cfg) (fuel : Nat) :
    ∀ (st : HState K) (i n : Nat), hLen (heapDownGo c fuel st i n).1 = hLen st := by
  induction fuel with
  | zero => intro st i n; rfl
  | succ fuel ih =>
    intro st i n
    unfold heapDownGo
    split
    · split
      · split
        · rw [ih, hLen_hSwap]
        · rfl
      · split
        · rw [ih, hLen_hSwap]
        · rfl
    · rfl

theorem hLen_heapDown (c : Cfg) (st : HState K) (i n : Nat) :
    hLen (heapDown c st i n).1 = hLen st :=
  hLen_heapDownGo c (n - i) st i n

theorem hLen_heapUpGo (c : Cfg) (fuel : Nat) :
    ∀ (st : HState K) (j : Nat), hLen (heapUpGo c fuel st j) = hLen st := by
  induction fuel with
  | zero => intro st j; rfl
  | succ fuel ih =>
    intro st j
    unfold heapUpGo
    split
    · rfl
    · rw [ih, hLen_hSwap]

theorem hLen_heapUp (c : Cfg) (st : HState K) (j : Nat) :
    hLen (heapUp c st j) = hLen st :=
  hLen_heapUpGo c j st j

theorem hLen_heapInitAux (c : Cfg) :
    ∀ (k : Nat) (st : HState K) (n : Nat), hLen (heapInitAux c st k n) = hLen st := by
  intro k
  induction k with
  | zero => intro st n; rfl
  | succ k ih =>
    intro st n
    unfold heapInitAux
    rw [ih, hLen_heapDown]

theorem hLen_heapInit (c : Cfg) (st : HState K) : hLen (heapInit c st) = hLen st :=
  hLen_heapInitAux c (hLen st / 2) st (hLen st)

theorem hLen_hPushInner (c : Cfg) (st : HState K) (p : Nat) :
    hLen (hPushInner c st p) = hLen st + 1 := by
  unfold hPushInner
  cases hc : c.hasIndex <;> simp [hLen, setIdx]

theorem hLen_heapPushOp (c : Cfg) (st : HState K) (p : Nat) :
    hLen (heapPushOp c st p) = hLen st + 1 := by
  unfold heapPushOp
  rw [hLen_heapUp, hLen_hPushInner]

/-! ### Order lemmas for the comparator and heap order -/

theorem nwB_refl (c : Cfg) (a : K) : nwB c a a = true := by
  obtain ⟨mh, hx⟩ := c
  cases mh <;> simp [nwB]

theorem nwB_trans {c : Cfg} {a b d : K} (h1 : nwB c a b = true)
    (h2 : nwB c b d = true) : nwB c a d = true := by
  obtain ⟨mh, hx⟩ := c
  unfold nwB at h1 h2 ⊢
  cases mh <;> simp_all
  · exact le_trans h2 h1
  · exact le_trans h1 h2

theorem lessB_nw {c : Cfg} {a b : K} (h : lessB c a b = true) : nwB c a b = true := by
  obtain ⟨mh, hx⟩ := c
  unfold lessB at h
  unfold nwB
  cases mh <;> simp_all
  exact le_of_lt h

theorem lessB_false_nw {c : Cfg} {a b : K} (h : lessB c a b = false) :
    nwB c b a = true := by
  obtain ⟨mh, hx⟩ := c
  unfold lessB at h
  unfold nwB
  cases mh <;> simp_all
  exact le_of_lt h

theorem nwB_or_eq {c : Cfg} {a b : K} (h : nwB c a b = true) :
    lessB c a b = true ∨ a = b := by
  obtain ⟨mh, hx⟩ := c
  unfold nwB at h
  unfold lessB
  cases mh <;> simp_all
  exact lt_or_eq_of_le h

/-! ### How the storage primitives move pointers and keys around -/

theorem slice_setIdx (st : HState K) (p : Nat) (v : Int) :
    (setIdx st p v).slice = st.slice := rfl

theorem storeKey_setIdx (st : HState K) (p : Nat) (v : Int) (q : Nat) :
    ((setIdx st p v).store q).key = (st.store q).key := by
  unfold setIdx
  by_cases h : q = p <;> simp [h]

theorem slice_hSwap (c : Cfg) (st : HState K) (i j : Nat) :
    (hSwap c st i j).slice = (st.slice.set i (ptrAt st j)).set j (ptrAt st i) := by
  unfold hSwap
  cases hc : c.hasIndex <;> simp [slice_setIdx]

theorem storeKey_hSwap (c : Cfg) (st : HState K) (i j q : Nat) :
    ((hSwap c st i j).store q).key = (st.store q).key := by
  unfold hSwap
  cases hc : c.hasIndex <;> simp [storeKey_setIdx]

theorem ptrAt_hSwap (c : Cfg) (st : HState K) (i j m : Nat)
    (hi : i < hLen st) (hj : j < hLen st) :
    ptrAt (hSwap c st i j) m =
      if m = j then ptrAt st i else if m = i then ptrAt st j else ptrAt st m := by
  have hgoal : ((st.slice.set i (ptrAt st j)).set j (ptrAt st i)).getD m 0 =
      if m = j then ptrAt st i else if m = i then ptrAt st j else ptrAt st m := by
    rw [List.getD_eq_getElem?_getD, List.getElem?_set]
    by_cases hmj : j = m
    · rw [if_pos hmj,
        if_pos (show j < (st.slice.set i (ptrAt st j)).length by
          rw [List.length_set]; exact hj),
        if_pos hmj.symm]
      rfl
    · rw [if_neg hmj, if_neg (fun hc => hmj hc.symm), List.getElem?_set]
      by_cases hmi : i = m
      · rw [if_pos hmi, if_pos (show i < st.slice.length from hi), if_pos hmi.symm]
        rfl
      · rw [if_neg hmi, if_neg (fun hc => hmi hc.symm), ← List.getD_eq_getElem?_getD]
        rfl
  show (hSwap c st i j).slice.getD m 0 = _
  rw [slice_hSwap]
  exact hgoal

theorem keyAtIdx_hSwap (c : Cfg) (st : HState K) (i j m : Nat)
    (hi : i < hLen st) (hj : j < hLen st) :
    keyAtIdx (hSwap c st i j) m =
      if m = j then keyAtIdx st i else if m = i then keyAtIdx st j
      else keyAtIdx st m := by
  have h1 : keyAtIdx (hSwap c st i j) m = (st.store (ptrAt (hSwap c st i j) m)).key :=
    storeKey_hSwap c st i j _
  rw [h1, ptrAt_hSwap c st i j m hi hj]
  split_ifs <;> rfl

theorem keyAtIdx_hSwap_out (c : Cfg) (st : HState K) (i j m : Nat)
    (hi : i < hLen st) (hj : j < hLen st) (hmi : m ≠ i) (hmj : m ≠ j) :
    keyAtIdx (hSwap c st i j) m = keyAtIdx st m := by
  rw [keyAtIdx_hSwap c st i j m hi hj, if_neg hmj, if_neg hmi]

/-! ### The implicit binary tree on slice offsets -/

/-- Subtree relation of the binary tree the heap driver works on: offset
`m` has children `2m+1` and `2m+2` and parent `(m-1)/2`, and
`Descendant i j` says `j` lies in the subtree rooted at `i` (including
`j = i`). -/
inductive Descendant : Nat → Nat → Prop where
  | refl (i : Nat) : Descendant i i
  | left (i : Nat) {k : Nat} : Descendant (2*i+1) k → Descendant i k
  | right (i : Nat) {k : Nat} : Descendant (2*i+2) k → Descendant i k

theorem Descendant.le {i j : Nat} (h : Descendant i j) : i ≤ j := by
  induction h with
  | refl i => exact Nat.le_refl i
  | left i h ih => omega
  | right i h ih => omega

theorem Descendant.trans : ∀ {i j k : Nat}, Descendant i j → Descendant j k →
    Descendant i k := by
  intro i j k h1
  induction h1 with
  | refl => exact fun h2 => h2
  | left a h ih => exact fun h2 => .left a (ih h2)
  | right a h ih => exact fun h2 => .right a (ih h2)

theorem Descendant.childL (i : Nat) : Descendant i (2*i+1) := .left i (.refl _)

theorem Descendant.childR (i : Nat) : Descendant i (2*i+2) := .right i (.refl _)

theorem Descendant.lower {i j : Nat} (h : Descendant i j) (hne : j ≠ i) :
    2*i+1 ≤ j := by
  cases h with
  | refl => exact absurd rfl hne
  | left i h => have := h.le; omega
  | right i h => have := h.le; omega

theorem Descendant.of_parent {i j : Nat} (h : Descendant i ((j-1)/2)) :
    Descendant i j := by
  rcases Nat.eq_zero_or_pos j with hj | hj
  · subst hj; exact h
  · have hsplit : j = 2*((j-1)/2)+1 ∨ j = 2*((j-1)/2)+2 := by omega
    rcases hsplit with hs | hs
    · rw [hs]; exact h.trans (childL _)
    · rw [hs]; exact h.trans (childR _)

theorem Descendant.parent_self (j : Nat) : Descendant ((j-1)/2) j :=
  of_parent (.refl _)

theorem Descendant.to_parent : ∀ {i j : Nat}, Descendant i j → i ≠ j →
    Descendant i ((j-1)/2) := by
  intro i j h
  induction h with
  | refl i => exact fun hc => absurd rfl hc
  | @left a k h ih =>
    intro _
    by_cases hc : 2*a+1 = k
    · rw [← hc]
      have heq : (2*a+1-1)/2 = a := by omega
      rw [heq]
      exact .refl a
    · exact .left a (ih hc)
  | @right a k h ih =>
    intro _
    by_cases hc : 2*a+2 = k
    · rw [← hc]
      have heq : (2*a+2-1)/2 = a := by omega
      rw [heq]
      exact .refl a
    · exact .right a (ih hc)

theorem Descendant.comparable : ∀ {a b x : Nat}, Descendant a x → Descendant b x →
    Descendant a b ∨ Descendant b a := by
  intro a b x h1
  induction h1 with
  | refl a => exact fun h2 => Or.inr h2
  | left a h ih =>
    intro h2
    rcases ih h2 with h3 | h3
    · exact Or.inl (.left a h3)
    · by_cases hb : b = 2*a+1
      · rw [hb]; exact Or.inl (childL a)
      · have h4 := h3.to_parent hb
        have heq : (2*a+1-1)/2 = a := by omega
        rw [heq] at h4
        exact Or.inr h4
  | right a h ih =>
    intro h2
    rcases ih h2 with h3 | h3
    · exact Or.inl (.right a h3)
    · by_cases hb : b = 2*a+2
      · rw [hb]; exact Or.inl (childR a)
      · have h4 := h3.to_parent hb
        have heq : (2*a+2-1)/2 = a := by omega
        rw [heq] at h4
        exact Or.inr h4

theorem Descendant.sibling_disjoint {i x : Nat} (h1 : Descendant (2*i+1) x)
    (h2 : Descendant (2*i+2) x) : False := by
  rcases h1.comparable h2 with h | h
  · have := h.lower (by omega); omega
  · have := h.le; omega

theorem Descendant.zero : ∀ i : Nat, Descendant 0 i := by
  intro i
  induction i using Nat.strong_induction_on with
  | _ i ih =>
    rcases Nat.eq_zero_or_pos i with h | h
    · rw [h]; exact .refl 0
    · exact of_parent (ih ((i-1)/2) (by omega))

/-! ### Frame and permutation lemmas for the sift loops -/

theorem storeKey_heapDownGo (c : Cfg) (fuel : Nat) :
    ∀ (st : HState K) (i n q : Nat),
      (((heapDownGo c fuel st i n).1).store q).key = (st.store q).key := by
  induction fuel with
  | zero => intro st i n q; rfl
  | succ fuel ih =>
    intro st i n q
    unfold heapDownGo
    split
    · split
      · split
        · rw [ih, storeKey_hSwap]
        · rfl
      · split
        · rw [ih, storeKey_hSwap]
        · rfl
    · rfl

theorem ptrAt_frame_heapDownGo (c : Cfg) (fuel : Nat) :
    ∀ (st : HState K) (i n : Nat), n ≤ hLen st →
      ∀ m, n ≤ m → ptrAt (heapDownGo c fuel st i n).1 m = ptrAt st m := by
  induction fuel with
  | zero => intro st i n _ m _; rfl
  | succ fuel ih =>
    intro st i n hn m hm
    unfold heapDownGo
    split
    · rename_i h1
      split
      · rename_i h2
        split
        · rw [ih _ _ _ (by rw [hLen_hSwap]; exact hn) m hm,
            ptrAt_hSwap c st i (2*i+2) m (by omega) (by omega)]
          rw [if_neg (by omega), if_neg (by omega)]
        · rfl
      · split
        · rw [ih _ _ _ (by rw [hLen_hSwap]; exact hn) m hm,
            ptrAt_hSwap c st i (2*i+1) m (by omega) (by omega)]
          rw [if_neg (by omega), if_neg (by omega)]
        · rfl
    · rfl

theorem keyAtIdx_frame_heapDownGo (c : Cfg) (fuel : Nat)
    (st : HState K) (i n : Nat) (hn : n ≤ hLen st)
    (m : Nat) (hm : n ≤ m) :
    keyAtIdx (heapDownGo c fuel st i n).1 m = keyAtIdx st m := by
  show (((heapDownGo c fuel st i n).1).store (ptrAt (heapDownGo c fuel st i n).1 m)).key = _
  rw [ptrAt_frame_heapDownGo c fuel st i n hn m hm, storeKey_heapDownGo]
  rfl

theorem keyAtIdx_perm_heapDownGo (c : Cfg) (fuel : Nat) :
    ∀ (st : HState K) (i n : Nat), n ≤ hLen st →
      ∀ m, m < n →
        ∃ m2, m2 < n ∧ keyAtIdx (heapDownGo c fuel st i n).1 m = keyAtIdx st m2 := by
  induction fuel with
  | zero => intro st i n _ m hm; exact ⟨m, hm, rfl⟩
  | succ fuel ih =>
    intro st i n hn m hm
    unfold heapDownGo
    split
    · rename_i h1
      split
      · rename_i h2
        split
        · obtain ⟨m2, hm2, he⟩ :=
            ih (hSwap c st i (2*i+2)) (2*i+2) n (by rw [hLen_hSwap]; exact hn) m hm
          rw [he, keyAtIdx_hSwap c st i (2*i+2) m2 (by omega) (by omega)]
          by_cases ha : m2 = 2*i+2
          · rw [if_pos ha]; exact ⟨i, by omega, rfl⟩
          · rw [if_neg ha]
            by_cases hb : m2 = i
            · rw [if_pos hb]; exact ⟨2*i+2, by omega, rfl⟩
            · rw [if_neg hb]; exact ⟨m2, hm2, rfl⟩
        · exact ⟨m, hm, rfl⟩
      · split
        · obtain ⟨m2, hm2, he⟩ :=
            ih (hSwap c st i (2*i+1)) (2*i+1) n (by rw [hLen_hSwap]; exact hn) m hm
          rw [he, keyAtIdx_hSwap c st i (2*i+1) m2 (by omega) (by omega)]
          by_cases ha : m2 = 2*i+1
          · rw [if_pos ha]; exact ⟨i, by omega, rfl⟩
          · rw [if_neg ha]
            by_cases hb : m2 = i
            · rw [if_pos hb]; exact ⟨2*i+1, by omega, rfl⟩
            · rw [if_neg hb]; exact ⟨m2, hm2, rfl⟩
        · exact ⟨m, hm, rfl⟩
    · exact ⟨m, hm, rfl⟩

theorem heapDownGo_le (c : Cfg) (fuel : Nat) :
    ∀ (st : HState K) (i n : Nat), i ≤ (heapDownGo c fuel st i n).2 := by
  induction fuel with
  | zero => intro st i n; exact Nat.le_refl i
  | succ fuel ih =>
    intro st i n
    unfold heapDownGo
    split
    · split
      · split
        · exact le_trans (by omega) (ih _ (2*i+2) n)
        · exact Nat.le_refl i
      · split
        · exact le_trans (by omega) (ih _ (2*i+1) n)
        · exact Nat.le_refl i
    · exact Nat.le_refl i

theorem storeKey_heapUpGo (c : Cfg) (fuel : Nat) :
    ∀ (st : HState K) (j q : Nat),
      ((heapUpGo c fuel st j).store q).key = (st.store q).key := by
  induction fuel with
  | zero => intro st j q; rfl
  | succ fuel ih =>
    intro st j q
    unfold heapUpGo
    split
    · rfl
    · rw [ih, storeKey_hSwap]

theorem ptrAt_frame_heapUpGo (c : Cfg) (fuel : Nat) :
    ∀ (st : HState K) (j : Nat), j < hLen st →
      ∀ m, j < m → ptrAt (heapUpGo c fuel st j) m = ptrAt st m := by
  induction fuel with
  | zero => intro st j _ m _; rfl
  | succ fuel ih =>
    intro st j hj m hm
    unfold heapUpGo
    split
    · rfl
    · rename_i hcond
      have hj1 : ¬ (j-1)/2 = j := fun hc => hcond (Or.inl hc)
      rw [ih _ _ (by rw [hLen_hSwap]; omega) m (by omega),
        ptrAt_hSwap c st ((j-1)/2) j m (by omega) hj]
      rw [if_neg (by omega), if_neg (by omega)]

theorem keyAtIdx_frame_heapUpGo (c : Cfg) (fuel : Nat)
    (st : HState K) (j : Nat) (hj : j < hLen st) (m : Nat) (hm : j < m) :
    keyAtIdx (heapUpGo c fuel st j) m = keyAtIdx st m := by
  show ((heapUpGo c fuel st j).store (ptrAt (heapUpGo c fuel st j) m)).key = _
  rw [ptrAt_frame_heapUpGo c fuel st j hj m hm, storeKey_heapUpGo]
  rfl

theorem keyAtIdx_perm_heapUpGo (c : Cfg) (fuel : Nat) :
    ∀ (st : HState K) (j n : Nat), j < n → n ≤ hLen st →
      ∀ m, m < n →
        ∃ m2, m2 < n ∧ keyAtIdx (heapUpGo c fuel st j) m = keyAtIdx st m2 := by
  induction fuel with
  | zero => intro st j n _ _ m hm; exact ⟨m, hm, rfl⟩
  | succ fuel ih =>
    intro st j n hj hn m hm
    unfold heapUpGo
    split
    · exact ⟨m, hm, rfl⟩
    · rename_i hcond
      have hj1 : ¬ (j-1)/2 = j := fun hc => hcond (Or.inl hc)
      obtain ⟨m2, hm2, he⟩ :=
        ih (hSwap c st ((j-1)/2) j) ((j-1)/2) n (by omega) (by rw [hLen_hSwap]; exact hn) m hm
      rw [he, keyAtIdx_hSwap c st ((j-1)/2) j m2 (by omega) (by omega)]
      by_cases ha : m2 = j
      · rw [if_pos ha]; exact ⟨(j-1)/2, by omega, rfl⟩
      · rw [if_neg ha]
        by_cases hb : m2 = (j-1)/2
        · rw [if_pos hb]; exact ⟨j, by omega, rfl⟩
        · rw [if_neg hb]; exact ⟨m2, hm2, rfl⟩

/-! ### Correctness of the down sift -/

/-- Precondition of `down(h, i, n)`: inside the subtree rooted at `i`, all
parent-child pairs except those leaving `i` itself already satisfy the
heap order. -/
def DPre (c : Cfg) (st : HState K) (i n : Nat) : Prop :=
  ∀ m, m < n → 0 < m → Descendant i ((m-1)/2) → (m-1)/2 ≠ i →
    nwAt c st ((m-1)/2) m

/-- Postcondition of the `down` loop relative to its starting state `st0`
and starting index `i`: the subtree rooted at `i` is in heap order; if the
loop did not move, the state is unchanged and `i` already dominated its
children; if it did move, the key now at `i` is one of the old keys of the
children of `i`; keys outside the subtree of `i` are untouched. -/
def DPost (c : Cfg) (st0 : HState K) (i n : Nat) (r : HState K × Nat) : Prop :=
  (∀ m, m < n → 0 < m → Descendant i ((m-1)/2) → nwAt c r.1 ((m-1)/2) m) ∧
  (r.2 = i → r.1 = st0 ∧ (∀ m, m < n → 0 < m → (m-1)/2 = i → nwAt c st0 i m)) ∧
  (i < r.2 → ∃ mc, (mc = 2*i+1 ∨ mc = 2*i+2) ∧ mc < n ∧
    keyAtIdx r.1 i = keyAtIdx st0 mc) ∧
  (∀ m, ¬ Descendant i m → keyAtIdx r.1 m = keyAtIdx st0 m)

theorem heapDownGo_step (c : Cfg) (fuel : Nat)
    (ih : ∀ (st : HState K) (i n : Nat), n ≤ i + fuel → n ≤ hLen st →
      DPre c st i n → DPost c st i n (heapDownGo c fuel st i n))
    (st : HState K) (i n jc : Nat)
    (hjc : jc = 2*i+1 ∨ jc = 2*i+2) (hjn : jc < n)
    (hfuel : n ≤ i + (fuel+1)) (hn : n ≤ hLen st) (hpre : DPre c st i n)
    (h3 : hLess c st jc i = true)
    (hbest : ∀ m, m < n → 0 < m → (m-1)/2 = i →
      nwB c (keyAtIdx st jc) (keyAtIdx st m) = true) :
    DPost c st i n (heapDownGo c fuel (hSwap c st i jc) jc n) := by
  have hij : i < jc := by omega
  have hilen : i < hLen st := by omega
  have hjlen : jc < hLen st := by omega
  have hdij : Descendant i jc := by
    rcases hjc with h | h
    · rw [h]; exact Descendant.childL i
    · rw [h]; exact Descendant.childR i
  set st1 := hSwap c st i jc with hst1
  have hlen1 : hLen st1 = hLen st := hLen_hSwap c st i jc
  have hk_i : keyAtIdx st1 i = keyAtIdx st jc := by
    rw [hst1, keyAtIdx_hSwap c st i jc i hilen hjlen, if_neg (by omega), if_pos rfl]
  have hk_j : keyAtIdx st1 jc = keyAtIdx st i := by
    rw [hst1, keyAtIdx_hSwap c st i jc jc hilen hjlen, if_pos rfl]
  have hk_out : ∀ m, m ≠ i → m ≠ jc → keyAtIdx st1 m = keyAtIdx st m := by
    intro m hmi hmj
    rw [hst1, keyAtIdx_hSwap c st i jc m hilen hjlen, if_neg hmj, if_neg hmi]
  have hpre1 : DPre c st1 jc n := by
    intro m hm hm0 hdesc hne
    have hgt : jc < (m-1)/2 := by
      have := hdesc.lower hne
      omega
    unfold nwAt
    rw [hk_out _ (by omega) (by omega), hk_out m (by omega) (by omega)]
    exact hpre m hm hm0 (hdij.trans hdesc) (by omega)
  obtain ⟨ihA, ihB, ihC, ihD⟩ :=
    ih st1 jc n (by omega) (by rw [hlen1]; exact hn) hpre1
  set r := heapDownGo c fuel st1 jc n with hr
  have hler : jc ≤ r.2 := heapDownGo_le c fuel st1 jc n
  have hnd_i : ¬ Descendant jc i := fun hc => by have := hc.le; omega
  have hk_r_i : keyAtIdx r.1 i = keyAtIdx st jc := by rw [ihD i hnd_i, hk_i]
  refine ⟨?_, ?_, ?_, ?_⟩
  · intro m hm hm0 hdesc
    by_cases hdj : Descendant jc ((m-1)/2)
    · exact ihA m hm hm0 hdj
    · by_cases hpmi : (m-1)/2 = i
      · have hm12 : m = 2*i+1 ∨ m = 2*i+2 := by omega
        by_cases hmj : m = jc
        · subst hmj
          unfold nwAt
          rw [hpmi, hk_r_i]
          rcases eq_or_lt_of_le hler with heq | hlt
          · obtain ⟨hst_eq, _⟩ := ihB heq.symm
            rw [hst_eq, hk_j]
            have hh := h3
            unfold hLess at hh
            exact lessB_nw hh
          · obtain ⟨mc, hmc12, hmcn, hkey⟩ := ihC hlt
            rw [hkey, hk_out mc (by omega) (by omega)]
            have hparmc : (mc-1)/2 = m := by omega
            have hp := hpre mc hmcn (by omega) (by rw [hparmc]; exact hdij) (by omega)
            unfold nwAt at hp
            rw [hparmc] at hp
            exact hp
        · have hnd_m : ¬ Descendant jc m := by
            intro hc
            have := hc.lower hmj
            omega
          unfold nwAt
          rw [hpmi, hk_r_i, ihD m hnd_m, hk_out m (by omega) hmj]
          exact hbest m hm hm0 hpmi
      · have hsib : (Descendant (2*i+1) ((m-1)/2) ∧ jc = 2*i+2) ∨
            (Descendant (2*i+2) ((m-1)/2) ∧ jc = 2*i+1) := by
          cases hdesc with
          | refl => exact absurd rfl hpmi
          | left _ h =>
            rcases hjc with hj | hj
            · exact absurd (by rw [hj]; exact h) hdj
            · exact Or.inl ⟨h, hj⟩
          | right _ h =>
            rcases hjc with hj | hj
            · exact Or.inr ⟨h, hj⟩
            · exact absurd (by rw [hj]; exact h) hdj
        have hm_lb : 2*i+1 ≤ (m-1)/2 := by
          rcases hsib with ⟨h, _⟩ | ⟨h, _⟩
          · have := h.le; omega
          · have := h.le; omega
        have hdesc_m : ¬ Descendant jc m := by
          intro hc
          rcases hsib with ⟨h, hj⟩ | ⟨h, hj⟩
          · exact Descendant.sibling_disjoint h.of_parent (by rw [← hj]; exact hc)
          · exact Descendant.sibling_disjoint (by rw [← hj]; exact hc) h.of_parent
        have hpar_ne : (m-1)/2 ≠ jc := fun hc => hdj (by rw [hc]; exact .refl jc)
        unfold nwAt
        rw [ihD m hdesc_m, ihD ((m-1)/2) hdj,
          hk_out m (by omega) (fun hc => hdesc_m (by rw [hc]; exact .refl jc)),
          hk_out ((m-1)/2) (by omega) hpar_ne]
        exact hpre m hm hm0 hdesc hpmi
  · intro h5
    exact absurd h5 (by omega)
  · intro _
    exact ⟨jc, hjc, hjn, hk_r_i⟩
  · intro m hnd
    have hmi : m ≠ i := fun hc => hnd (by rw [hc]; exact .refl i)
    have hmj : m ≠ jc := fun hc => hnd (by rw [hc]; exact hdij)
    have hndj : ¬ Descendant jc m := fun hc => hnd (hdij.trans hc)
    rw [ihD m hndj, hk_out m hmi hmj]

theorem heapDownGo_main (c : Cfg) (fuel : Nat) :
    ∀ (st : HState K) (i n : Nat), n ≤ i + fuel → n ≤ hLen st →
      DPre c st i n → DPost c st i n (heapDownGo c fuel st i n) := by
  induction fuel with
  | zero =>
    intro st i n hfuel hn hpre
    refine ⟨?_, ?_, ?_, ?_⟩
    · intro m hm hm0 hdesc
      have := hdesc.le
      omega
    · intro _
      refine ⟨rfl, ?_⟩
      intro m hm hm0 hpm
      omega
    · intro hc
      exact absurd hc (lt_irrefl i)
    · intro m _
      rfl
  | succ fuel ih =>
    intro st i n hfuel hn hpre
    unfold heapDownGo
    split
    · rename_i h1
      split
      · rename_i h2
        split
        · rename_i h3
          exact heapDownGo_step c fuel ih st i n (2*i+2) (Or.inr rfl) h2.1 hfuel hn hpre h3
            (by
              intro m hm hm0 hpm
              have hm12 : m = 2*i+1 ∨ m = 2*i+2 := by omega
              rcases hm12 with hm' | hm'
              · subst hm'
                have hh := h2.2
                unfold hLess at hh
                exact lessB_nw hh
              · subst hm'
                exact nwB_refl c _)
        · rename_i h3
          have h3f : hLess c st (2*i+2) i = false := by simpa using h3
          have hchild : ∀ m, m < n → 0 < m → (m-1)/2 = i →
              nwB c (keyAtIdx st i) (keyAtIdx st m) = true := by
            intro m hm hm0 hpm
            have hm12 : m = 2*i+1 ∨ m = 2*i+2 := by omega
            have hf : nwB c (keyAtIdx st i) (keyAtIdx st (2*i+2)) = true := by
              have hh := h3f
              unfold hLess at hh
              exact lessB_false_nw hh
            rcases hm12 with hm' | hm'
            · subst hm'
              have hh2 := h2.2
              unfold hLess at hh2
              exact nwB_trans hf (lessB_nw hh2)
            · subst hm'
              exact hf
          refine ⟨?_, ?_, ?_, ?_⟩
          · intro m hm hm0 hdesc
            by_cases hpm : (m-1)/2 = i
            · unfold nwAt
              rw [hpm]
              exact hchild m hm hm0 hpm
            · exact hpre m hm hm0 hdesc hpm
          · intro _
            exact ⟨rfl, fun m hm hm0 hpm => hchild m hm hm0 hpm⟩
          · intro hc
            exact absurd hc (lt_irrefl i)
          · intro m _
            rfl
      · rename_i h2
        split
        · rename_i h3
          exact heapDownGo_step c fuel ih st i n (2*i+1) (Or.inl rfl) h1 hfuel hn hpre h3
            (by
              intro m hm hm0 hpm
              have hm12 : m = 2*i+1 ∨ m = 2*i+2 := by omega
              rcases hm12 with hm' | hm'
              · subst hm'
                exact nwB_refl c _
              · subst hm'
                have hf : hLess c st (2*i+2) (2*i+1) = false := by
                  rcases Bool.eq_false_or_eq_true (hLess c st (2*i+2) (2*i+1)) with h | h
                  · exact absurd ⟨hm, h⟩ h2
                  · exact h
                unfold hLess at hf
                exact lessB_false_nw hf)
        · rename_i h3
          have h3f : hLess c st (2*i+1) i = false := by simpa using h3
          have hchild : ∀ m, m < n → 0 < m → (m-1)/2 = i →
              nwB c (keyAtIdx st i) (keyAtIdx st m) = true := by
            intro m hm hm0 hpm
            have hm12 : m = 2*i+1 ∨ m = 2*i+2 := by omega
            have hf : nwB c (keyAtIdx st i) (keyAtIdx st (2*i+1)) = true := by
              have hh := h3f
              unfold hLess at hh
              exact lessB_false_nw hh
            rcases hm12 with hm' | hm'
            · subst hm'
              exact hf
            · subst hm'
              have hf2 : hLess c st (2*i+2) (2*i+1) = false := by
                rcases Bool.eq_false_or_eq_true (hLess c st (2*i+2) (2*i+1)) with h | h
                · exact absurd ⟨hm, h⟩ h2
                · exact h
              unfold hLess at hf2
              exact nwB_trans hf (lessB_false_nw hf2)
          refine ⟨?_, ?_, ?_, ?_⟩
          · intro m hm hm0 hdesc
            by_cases hpm : (m-1)/2 = i
            · unfold nwAt
              rw [hpm]
              exact hchild m hm hm0 hpm
            · exact hpre m hm hm0 hdesc hpm
          · intro _
            exact ⟨rfl, fun m hm hm0 hpm => hchild m hm hm0 hpm⟩
          · intro hc
            exact absurd hc (lt_irrefl i)
          · intro m _
            rfl
    · rename_i h1
      refine ⟨?_, ?_, ?_, ?_⟩
      · intro m hm hm0 hdesc
        by_cases hpm : (m-1)/2 = i
        · omega
        · exact hpre m hm hm0 hdesc hpm
      · intro _
        refine ⟨rfl, ?_⟩
        intro m hm hm0 hpm
        omega
      · intro hc
        exact absurd hc (lt_irrefl i)
      · intro m _
        rfl

/-- The `down(h, i, n)` routine as called by the driver: its fuel `n - i`
is adequate, so the loop postcondition holds. -/
theorem heapDown_main (c : Cfg) (st : HState K) (i n : Nat) (hn : n ≤ hLen st)
    (hpre : DPre c st i n) : DPost c st i n (heapDown c st i n) :=
  heapDownGo_main c (n - i) st i n (by omega) hn hpre

/-! ### Correctness of the up sift -/

theorem heapUpGo_main (c : Cfg) (fuel : Nat) :
    ∀ (st : HState K) (j n : Nat), j ≤ fuel → j < n → n ≤ hLen st →
      (∀ m, m < n → 0 < m → m ≠ j → nwAt c st ((m-1)/2) m) →
      (∀ m, m < n → 0 < j → (m-1)/2 = j → nwAt c st ((j-1)/2) m) →
      ∀ m, m < n → 0 < m → nwAt c (heapUpGo c fuel st j) ((m-1)/2) m := by
  induction fuel with
  | zero =>
    intro st j n hfuel hj hn ha hb m hm hm0
    exact ha m hm hm0 (by omega)
  | succ fuel ih =>
    intro st j n hfuel hj hn ha hb m hm hm0
    unfold heapUpGo
    split
    · rename_i hcond
      by_cases hmj : m = j
      · subst hmj
        rcases hcond with hc | hc
        · omega
        · have hf : hLess c st m ((m-1)/2) = false := by simpa using hc
          unfold hLess at hf
          exact lessB_false_nw hf
      · exact ha m hm hm0 hmj
    · rename_i hcond
      have hj1 : ¬ (j-1)/2 = j := fun hc => hcond (Or.inl hc)
      have hless : hLess c st j ((j-1)/2) = true := by
        rcases Bool.eq_false_or_eq_true (hLess c st j ((j-1)/2)) with h | h
        · exact h
        · exact absurd (Or.inr (by rw [h]; exact Bool.false_ne_true)) hcond
      have hjpos : 0 < j := by omega
      have hij : (j-1)/2 < j := by omega
      have hjlen : j < hLen st := by omega
      have hilen : (j-1)/2 < hLen st := by omega
      have hk_i : keyAtIdx (hSwap c st ((j-1)/2) j) ((j-1)/2) = keyAtIdx st j := by
        rw [keyAtIdx_hSwap c st ((j-1)/2) j ((j-1)/2) hilen hjlen,
          if_neg (by omega), if_pos rfl]
      have hk_j : keyAtIdx (hSwap c st ((j-1)/2) j) j = keyAtIdx st ((j-1)/2) := by
        rw [keyAtIdx_hSwap c st ((j-1)/2) j j hilen hjlen, if_pos rfl]
      have hk_out : ∀ x, x ≠ (j-1)/2 → x ≠ j →
          keyAtIdx (hSwap c st ((j-1)/2) j) x = keyAtIdx st x := by
        intro x h1 h2
        rw [keyAtIdx_hSwap c st ((j-1)/2) j x hilen hjlen, if_neg h2, if_neg h1]
      have hnw : nwB c (keyAtIdx st j) (keyAtIdx st ((j-1)/2)) = true := by
        have hh := hless
        unfold hLess at hh
        exact lessB_nw hh
      refine ih (hSwap c st ((j-1)/2) j) ((j-1)/2) n (by omega) (by omega)
        (by rw [hLen_hSwap]; exact hn) ?_ ?_ m hm hm0
      · intro x hx hx0 hxi
        by_cases hxj : x = j
        · subst hxj
          unfold nwAt
          rw [hk_i, hk_j]
          exact hnw
        · by_cases hpxj : (x-1)/2 = j
          · unfold nwAt
            rw [hpxj, hk_j, hk_out x hxi hxj]
            have hbx := hb x hx hjpos hpxj
            unfold nwAt at hbx
            exact hbx
          · by_cases hpxi : (x-1)/2 = (j-1)/2
            · unfold nwAt
              rw [hpxi, hk_i, hk_out x hxi hxj]
              have hax := ha x hx hx0 hxj
              unfold nwAt at hax
              rw [hpxi] at hax
              exact nwB_trans hnw hax
            · unfold nwAt
              rw [hk_out x hxi hxj, hk_out ((x-1)/2) hpxi hpxj]
              exact ha x hx hx0 hxj
      · intro x hx hipos hpx
        have hxj_or : x = j ∨ x ≠ j := em _
        have hkpar : keyAtIdx (hSwap c st ((j-1)/2) j) (((j-1)/2-1)/2) =
            keyAtIdx st (((j-1)/2-1)/2) := by
          refine hk_out _ (by omega) (by omega)
        have hai := ha ((j-1)/2) (by omega) hipos hj1
        unfold nwAt at hai
        rcases hxj_or with hxj | hxj
        · subst hxj
          unfold nwAt
          rw [hkpar, hk_j]
          exact hai
        · have hx_ne : x ≠ (j-1)/2 := by omega
          unfold nwAt
          rw [hkpar, hk_out x hx_ne hxj]
          have hax := ha x hx (by omega) hxj
          unfold nwAt at hax
          rw [hpx] at hax
          exact nwB_trans hai hax

/-- The `up(h, j)` routine as called by the driver has fuel `j`, which is
always adequate. -/
theorem heapUp_main (c : Cfg) (st : HState K) (j n : Nat) (hj : j < n)
    (hn : n ≤ hLen st)
    (ha : ∀ m, m < n → 0 < m → m ≠ j → nwAt c st ((m-1)/2) m)
    (hb : ∀ m, m < n → 0 < j → (m-1)/2 = j → nwAt c st ((j-1)/2) m) :
    ∀ m, m < n → 0 < m → nwAt c (heapUp c st j) ((m-1)/2) m :=
  heapUpGo_main c j st j n (Nat.le_refl j) hj hn ha hb

/-! ### The heap invariant across the exported operations -/

theorem keyAtIdx_hPushInner (c : Cfg) (st : HState K) (p : Nat) (m : Nat)
    (hm : m < hLen st) :
    keyAtIdx (hPushInner c st p) m = keyAtIdx st m := by
  have hptr : ptrAt (hPushInner c st p) m = ptrAt st m := by
    show (hPushInner c st p).slice.getD m 0 = st.slice.getD m 0
    have hsl : (hPushInner c st p).slice = st.slice ++ [p] := by
      unfold hPushInner
      cases hc : c.hasIndex <;> simp [slice_setIdx]
    rw [hsl, List.getD_eq_getElem?_getD, List.getD_eq_getElem?_getD,
      List.getElem?_append, if_pos (show m < st.slice.length from hm)]
  have hkey : ∀ q, ((hPushInner c st p).store q).key = (st.store q).key := by
    intro q
    unfold hPushInner
    cases hc : c.hasIndex <;> simp [storeKey_setIdx]
  show ((hPushInner c st p).store (ptrAt (hPushInner c st p) m)).key = _
  rw [hptr, hkey]
  rfl

theorem keyAtIdx_take (st : HState K) (k m : Nat) (hm : m < k) :
    keyAtIdx (⟨st.store, st.slice.take k⟩ : HState K) m = keyAtIdx st m := by
  show (st.store ((st.slice.take k).getD m 0)).key = _
  rw [List.getD_eq_getElem?_getD, List.getElem?_take, if_pos hm,
    ← List.getD_eq_getElem?_getD]
  rfl

theorem ptrAt_take (st : HState K) (k m : Nat) (hm : m < k) :
    ptrAt (⟨st.store, st.slice.take k⟩ : HState K) m = ptrAt st m := by
  show (st.slice.take k).getD m 0 = st.slice.getD m 0
  rw [List.getD_eq_getElem?_getD, List.getElem?_take, if_pos hm,
    ← List.getD_eq_getElem?_getD]

theorem hPopInner_pos (st : HState K) (h : 0 < hLen st) :
    hPopInner st =
      ((⟨st.store, st.slice.take (hLen st - 1)⟩ : HState K),
        some (ptrAt st (hLen st - 1))) := by
  unfold hPopInner
  rw [if_neg (by omega)]

/-- Construction establishes the heap invariant over arbitrary initial
contents: the `heap.Init` loop, processing nodes bottom-up, turns every
subtree into a heap. -/
theorem heapInitAux_main (c : Cfg) :
    ∀ (k : Nat) (st : HState K) (n : Nat), n ≤ hLen st →
      (∀ m, m < n → 0 < m → k ≤ (m-1)/2 → nwAt c st ((m-1)/2) m) →
      ∀ m, m < n → 0 < m → nwAt c (heapInitAux c st k n) ((m-1)/2) m := by
  intro k
  induction k with
  | zero =>
    intro st n hn hpre m hm hm0
    exact hpre m hm hm0 (Nat.zero_le _)
  | succ k ih =>
    intro st n hn hpre m hm hm0
    unfold heapInitAux
    have hpre_k : DPre c st k n := by
      intro x hx hx0 hdesc hne
      have := hdesc.lower hne
      exact hpre x hx hx0 (by omega)
    obtain ⟨dA, dB, dC, dD⟩ := heapDown_main c st k n hn hpre_k
    refine ih (heapDown c st k n).1 n (by rw [hLen_heapDown]; exact hn) ?_ m hm hm0
    intro x hx hx0 hk
    by_cases hdesc : Descendant k ((x-1)/2)
    · exact dA x hx hx0 hdesc
    · have hxk : ¬ Descendant k x := by
        intro hc
        by_cases hxe : x = k
        · rcases Nat.eq_zero_or_pos k with hk0 | hk0
          · exact hdesc (hk0 ▸ Descendant.zero ((x-1)/2))
          · omega
        · exact hdesc (hc.to_parent (fun hc2 => hxe hc2.symm))
      unfold nwAt
      rw [dD x hxk, dD ((x-1)/2) hdesc]
      have hne : (x-1)/2 ≠ k := fun hc => hdesc (by rw [hc]; exact .refl k)
      exact hpre x hx hx0 (by omega)

theorem heapInit_inv (c : Cfg) (st : HState K) :
    heapInv c (heapInit c st) (hLen (heapInit c st)) := by
  intro m hm hm0
  rw [hLen_heapInit] at hm
  exact heapInitAux_main c (hLen st / 2) st (hLen st) (Nat.le_refl _)
    (fun x hx hx0 hk => by omega) m hm hm0

theorem heapPushOp_inv (c : Cfg) (st : HState K) (p : Nat)
    (h : heapInv c st (hLen st)) :
    heapInv c (heapPushOp c st p) (hLen (heapPushOp c st p)) := by
  intro m hm hm0
  rw [hLen_heapPushOp] at hm
  have hlen1 : hLen (hPushInner c st p) = hLen st + 1 := hLen_hPushInner c st p
  show nwAt c (heapUp c (hPushInner c st p) (hLen (hPushInner c st p) - 1)) ((m-1)/2) m
  rw [hlen1]
  refine heapUp_main c (hPushInner c st p) (hLen st + 1 - 1) (hLen st + 1)
    (by omega) (by omega) ?_ ?_ m hm hm0
  · intro x hx hx0 hxj
    have hxlt : x < hLen st := by omega
    have hplt : (x-1)/2 < hLen st := by omega
    unfold nwAt
    rw [keyAtIdx_hPushInner c st p x hxlt, keyAtIdx_hPushInner c st p ((x-1)/2) hplt]
    exact h x hxlt hx0
  · intro x hx hj0 hpx
    omega

theorem ptrAt_frame_heapDown (c : Cfg) (st : HState K) (i n : Nat)
    (hn : n ≤ hLen st) (m : Nat) (hm : n ≤ m) :
    ptrAt (heapDown c st i n).1 m = ptrAt st m :=
  ptrAt_frame_heapDownGo c (n-i) st i n hn m hm

theorem storeKey_heapDown (c : Cfg) (st : HState K) (i n q : Nat) :
    (((heapDown c st i n).1).store q).key = (st.store q).key :=
  storeKey_heapDownGo c (n-i) st i n q

theorem keyAtIdx_perm_heapDown (c : Cfg) (st : HState K) (i n : Nat)
    (hn : n ≤ hLen st) (m : Nat) (hm : m < n) :
    ∃ m2, m2 < n ∧ keyAtIdx (heapDown c st i n).1 m = keyAtIdx st m2 :=
  keyAtIdx_perm_heapDownGo c (n-i) st i n hn m hm

theorem popExported_inv (c : Cfg) {st st' : HState K} {r : Option Nat}
    (h : heapInv c st (hLen st)) (hok : popExported c st = .ok (st', r)) :
    heapInv c st' (hLen st') ∧ hLen st' = hLen st - 1 ∧
    r = some (ptrAt st 0) ∧
    (∀ q, (st'.store q).key = (st.store q).key) ∧
    (∀ m, m < hLen st' → ∃ m2, m2 < hLen st ∧ keyAtIdx st' m = keyAtIdx st m2) := by
  unfold popExported at hok
  by_cases h0 : hLen st = 0
  · rw [if_pos h0] at hok
    exact absurd hok (by simp)
  · rw [if_neg h0] at hok
    have hok2 : (Except.ok
        (hPopInner ((heapDown c (hSwap c st 0 (hLen st - 1)) 0 (hLen st - 1)).1)) :
          Except String (HState K × Option Nat)) =
        Except.ok (st', r) := hok
    have hpair := Except.ok.inj hok2
    have hlen1 : hLen (hSwap c st 0 (hLen st - 1)) = hLen st := hLen_hSwap c st 0 _
    have hlen2 :
        hLen ((heapDown c (hSwap c st 0 (hLen st - 1)) 0 (hLen st - 1)).1) = hLen st := by
      rw [hLen_heapDown, hlen1]
    rw [hPopInner_pos _ (by omega)] at hpair
    injection hpair with h1 h2
    subst h1
    subst h2
    have hbound : hLen st - 1 ≤ hLen (hSwap c st 0 (hLen st - 1)) := by omega
    have hlen' : hLen
        ((⟨((heapDown c (hSwap c st 0 (hLen st - 1)) 0 (hLen st - 1)).1).store,
          ((heapDown c (hSwap c st 0 (hLen st - 1)) 0 (hLen st - 1)).1).slice.take
            (hLen ((heapDown c (hSwap c st 0 (hLen st - 1)) 0 (hLen st - 1)).1) - 1)⟩ :
          HState K)) = hLen st - 1 := by
      show (((heapDown c (hSwap c st 0 (hLen st - 1)) 0 (hLen st - 1)).1).slice.take
        (hLen ((heapDown c (hSwap c st 0 (hLen st - 1)) 0 (hLen st - 1)).1) - 1)).length
        = hLen st - 1
      rw [List.length_take]
      have := hlen2
      unfold hLen at this ⊢
      omega
    have hdpre : DPre c (hSwap c st 0 (hLen st - 1)) 0 (hLen st - 1) := by
      intro m hm hm0 _ hne
      unfold nwAt
      rw [keyAtIdx_hSwap_out c st 0 (hLen st - 1) m (by omega) (by omega)
          (by omega) (by omega),
        keyAtIdx_hSwap_out c st 0 (hLen st - 1) ((m-1)/2) (by omega) (by omega)
          hne (by omega)]
      exact h m (by omega) hm0
    obtain ⟨dA, _, _, _⟩ :=
      heapDown_main c (hSwap c st 0 (hLen st - 1)) 0 (hLen st - 1) hbound hdpre
    refine ⟨?_, hlen', ?_, ?_, ?_⟩
    · intro m hm hm0
      rw [hlen'] at hm
      unfold nwAt
      rw [keyAtIdx_take _ _ m (by omega), keyAtIdx_take _ _ ((m-1)/2) (by omega)]
      have := dA m (by omega) hm0 (Descendant.zero _)
      unfold nwAt at this
      exact this
    · rw [hlen2]
      rw [ptrAt_frame_heapDown c _ 0 (hLen st - 1) hbound _ (Nat.le_refl _),
        ptrAt_hSwap c st 0 (hLen st - 1) _ (by omega) (by omega), if_pos rfl]
    · intro q
      show ((((heapDown c (hSwap c st 0 (hLen st - 1)) 0 (hLen st - 1)).1)).store q).key = _
      rw [storeKey_heapDown, storeKey_hSwap]
    · intro m hm
      rw [hlen'] at hm
      rw [keyAtIdx_take _ _ m (by omega)]
      obtain ⟨m2, hm2, he⟩ :=
        keyAtIdx_perm_heapDown c (hSwap c st 0 (hLen st - 1)) 0 (hLen st - 1)
          hbound m (by omega)
      rw [he, keyAtIdx_hSwap c st 0 (hLen st - 1) m2 (by omega) (by omega)]
      by_cases ha : m2 = hLen st - 1
      · rw [if_pos ha]; exact ⟨0, by omega, rfl⟩
      · rw [if_neg ha]
        by_cases hb : m2 = 0
        · rw [if_pos hb]; exact ⟨hLen st - 1, by omega, rfl⟩
        · rw [if_neg hb]; exact ⟨m2, by omega, rfl⟩

theorem heapDown_le (c : Cfg) (st : HState K) (i n : Nat) :
    i ≤ (heapDown c st i n).2 :=
  heapDownGo_le c (n-i) st i n

/-- Shrinking the backing slice by its last entry keeps the heap
invariant of the remaining prefix. -/
theorem take_state_inv (c : Cfg) (st2 : HState K) (hpos : 0 < hLen st2)
    (hinv : heapInv c st2 (hLen st2 - 1)) :
    heapInv c (⟨st2.store, st2.slice.take (hLen st2 - 1)⟩ : HState K)
      (hLen (⟨st2.store, st2.slice.take (hLen st2 - 1)⟩ : HState K)) ∧
    hLen (⟨st2.store, st2.slice.take (hLen st2 - 1)⟩ : HState K) = hLen st2 - 1 := by
  have hlen : hLen (⟨st2.store, st2.slice.take (hLen st2 - 1)⟩ : HState K) =
      hLen st2 - 1 := by
    show (st2.slice.take (hLen st2 - 1)).length = _
    rw [List.length_take]
    unfold hLen
    omega
  refine ⟨?_, hlen⟩
  intro m hm hm0
  rw [hlen] at hm
  unfold nwAt
  rw [keyAtIdx_take _ _ m hm, keyAtIdx_take _ _ ((m-1)/2) (by omega)]
  exact hinv m hm hm0

/-- Precondition of the `down` call inside `heap.Remove`: after swapping
the removed element at offset `iN` with the last live element, the region
below the last offset is a heap everywhere except around `iN`. -/
theorem remove_swap_dpre (c : Cfg) (st : HState K) (iN : Nat)
    (h : heapInv c st (hLen st)) (hlt : iN < hLen st - 1) :
    DPre c (hSwap c st iN (hLen st - 1)) iN (hLen st - 1) := by
  intro m hm hm0 hdesc hne
  have hlow := hdesc.lower hne
  unfold nwAt
  rw [keyAtIdx_hSwap_out c st iN (hLen st - 1) m (by omega) (by omega)
      (by omega) (by omega),
    keyAtIdx_hSwap_out c st iN (hLen st - 1) ((m-1)/2) (by omega) (by omega)
      (by omega) (by omega)]
  exact h m (by omega) hm0

/-- When the `down` phase of `heap.Remove` moves the node, the region is
already a full heap afterwards. -/
theorem remove_down_inv (c : Cfg) (st : HState K) (iN : Nat)
    (h : heapInv c st (hLen st)) (hlt : iN < hLen st - 1)
    (hmv : iN < (heapDown c (hSwap c st iN (hLen st - 1)) iN (hLen st - 1)).2) :
    heapInv c (heapDown c (hSwap c st iN (hLen st - 1)) iN (hLen st - 1)).1
      (hLen st - 1) := by
  have hb : hLen st - 1 ≤ hLen (hSwap c st iN (hLen st - 1)) := by
    rw [hLen_hSwap]; omega
  obtain ⟨dA, dB, dC, dD⟩ :=
    heapDown_main c (hSwap c st iN (hLen st - 1)) iN (hLen st - 1) hb
      (remove_swap_dpre c st iN h hlt)
  obtain ⟨mc, hmc12, hmcn, hkey⟩ := dC hmv
  clear hmv dB dC hb
  intro m hm hm0
  by_cases hdesc : Descendant iN ((m-1)/2)
  · exact dA m hm hm0 hdesc
  · by_cases hmiN : m = iN
    · subst hmiN
      clear dA hdesc
      have hc1 : m < hLen st := by omega
      have hc2 : hLen st - 1 < hLen st := by omega
      have hc3 : (m-1)/2 ≠ m := by omega
      have hc4 : (m-1)/2 ≠ hLen st - 1 := by omega
      have hc5 : mc ≠ m := by omega
      have hc6 : mc ≠ hLen st - 1 := by omega
      have hparmc : (mc-1)/2 = m := by omega
      have hndpar : ¬ Descendant m ((m-1)/2) := fun hc => by
        have := hc.le; omega
      have hrw1 := keyAtIdx_hSwap_out c st m (hLen st - 1) ((m-1)/2) hc1 hc2 hc3 hc4
      have hrw2 := keyAtIdx_hSwap_out c st m (hLen st - 1) mc hc1 hc2 hc5 hc6
      unfold nwAt
      rw [hkey, dD _ hndpar, hrw1, hrw2]
      have h1' := h m hc1 hm0
      have h2' := h mc (by omega) (by omega)
      unfold nwAt at h1' h2'
      rw [hparmc] at h2'
      exact nwB_trans h1' h2'
    · have hnd_m : ¬ Descendant iN m :=
        fun hc => hdesc (hc.to_parent (fun he => hmiN he.symm))
      have hpar_ne : (m-1)/2 ≠ iN := fun hc => hdesc (by rw [hc]; exact .refl iN)
      clear dA hkey hmcn hmc12
      have hc1 : iN < hLen st := by omega
      have hc2 : hLen st - 1 < hLen st := by omega
      have hc3 : (m-1)/2 ≠ hLen st - 1 := by omega
      have hc4 : m ≠ hLen st - 1 := by omega
      unfold nwAt
      rw [dD m hnd_m, dD _ hdesc,
        keyAtIdx_hSwap_out c st iN (hLen st - 1) m hc1 hc2 hmiN hc4,
        keyAtIdx_hSwap_out c st iN (hLen st - 1) ((m-1)/2) hc1 hc2 hpar_ne hc3]
      exact h m (by omega) hm0

/-- When the `down` phase of `heap.Remove` does not move the node, the
following `up` phase restores the heap invariant. -/
theorem remove_up_inv (c : Cfg) (st : HState K) (iN : Nat)
    (h : heapInv c st (hLen st)) (hlt : iN < hLen st - 1)
    (hmv : ¬ iN < (heapDown c (hSwap c st iN (hLen st - 1)) iN (hLen st - 1)).2) :
    heapInv c
      (heapUp c (heapDown c (hSwap c st iN (hLen st - 1)) iN (hLen st - 1)).1 iN)
      (hLen st - 1) := by
  have hb : hLen st - 1 ≤ hLen (hSwap c st iN (hLen st - 1)) := by
    rw [hLen_hSwap]; omega
  obtain ⟨dA, dB, dC, dD⟩ :=
    heapDown_main c (hSwap c st iN (hLen st - 1)) iN (hLen st - 1) hb
      (remove_swap_dpre c st iN h hlt)
  have hdeq : (heapDown c (hSwap c st iN (hLen st - 1)) iN (hLen st - 1)).2 = iN :=
    Nat.le_antisymm (Nat.not_lt.mp hmv)
      (heapDown_le c (hSwap c st iN (hLen st - 1)) iN (hLen st - 1))
  obtain ⟨hst_eq, hch⟩ := dB hdeq
  rw [hst_eq]
  clear hmv hdeq hst_eq dA dB dC dD hb
  intro m hm hm0
  refine heapUp_main c (hSwap c st iN (hLen st - 1)) iN (hLen st - 1) hlt
    (by rw [hLen_hSwap]; omega) ?_ ?_ m hm hm0
  · intro x hx hx0 hxj
    by_cases hpx : (x-1)/2 = iN
    · have := hch x hx hx0 hpx
      unfold nwAt at this ⊢
      rw [hpx]
      exact this
    · unfold nwAt
      rw [keyAtIdx_hSwap_out c st iN (hLen st - 1) x (by omega) (by omega)
          hxj (by omega),
        keyAtIdx_hSwap_out c st iN (hLen st - 1) ((x-1)/2) (by omega) (by omega)
          hpx (by omega)]
      exact h x (by omega) hx0
  · intro x hx hi0 hpx
    unfold nwAt
    have hx_ne : x ≠ iN := by omega
    rw [keyAtIdx_hSwap_out c st iN (hLen st - 1) x (by omega) (by omega)
        hx_ne (by omega),
      keyAtIdx_hSwap_out c st iN (hLen st - 1) ((iN-1)/2) (by omega) (by omega)
        (by omega) (by omega)]
    have h1' := h iN (by omega) hi0
    have h2' := h x (by omega) (by omega)
    unfold nwAt at h1' h2'
    rw [hpx] at h2'
    exact nwB_trans h1' h2'

theorem removeExported_inv (c : Cfg) {st st' : HState K} {u : GoVal} {r : Option Nat}
    (h : heapInv c st (hLen st)) (hok : removeExported c st u = .ok (st', r)) :
    heapInv c st' (hLen st') ∧ hLen st' = hLen st - 1 := by
  unfold removeExported at hok
  by_cases hidx : c.hasIndex = false
  · rw [if_pos hidx] at hok
    exact absurd hok (by simp)
  · rw [if_neg hidx] at hok
    cases u with
    | otherArg t => exact absurd hok (by simp)
    | recArg p =>
      replace hok : (if (st.store p).idx = (hLen st : Int) - 1
          then (Except.ok (hPopInner st) : Except String (HState K × Option Nat))
          else if 0 ≤ (st.store p).idx ∧ (st.store p).idx < (hLen st : Int) then
            Except.ok (hPopInner
              (if ((st.store p).idx).toNat < (heapDown c (hSwap c st ((st.store p).idx).toNat (hLen st - 1)) ((st.store p).idx).toNat (hLen st - 1)).2 then (heapDown c (hSwap c st ((st.store p).idx).toNat (hLen st - 1)) ((st.store p).idx).toNat (hLen st - 1)).1 else heapUp c (heapDown c (hSwap c st ((st.store p).idx).toNat (hLen st - 1)) ((st.store p).idx).toNat (hLen st - 1)).1 ((st.store p).idx).toNat))
          else Except.error "panic: index out of range") = Except.ok (st', r) := hok
      by_cases hbr1 : (st.store p).idx = (hLen st : Int) - 1
      · rw [if_pos hbr1] at hok
        have hpair := Except.ok.inj hok
        by_cases h0 : hLen st = 0
        · unfold hPopInner at hpair
          rw [if_pos h0] at hpair
          injection hpair with h1 h2
          subst h1
          constructor
          · intro m hm hm0
            omega
          · omega
        · rw [hPopInner_pos st (by omega)] at hpair
          injection hpair with h1 h2
          subst h1
          have hti := take_state_inv c st (by omega)
            (fun m hm hm0 => h m (by omega) hm0)
          exact ⟨hti.1, hti.2⟩
      · rw [if_neg hbr1] at hok
        by_cases hbr2 : 0 ≤ (st.store p).idx ∧ (st.store p).idx < (hLen st : Int)
        · rw [if_pos hbr2] at hok
          have hlt : ((st.store p).idx).toNat < hLen st - 1 := by omega
          by_cases hmv : ((st.store p).idx).toNat < (heapDown c (hSwap c st ((st.store p).idx).toNat (hLen st - 1)) ((st.store p).idx).toNat (hLen st - 1)).2
          · rw [if_pos hmv] at hok
            have hinv2 : heapInv c (heapDown c (hSwap c st ((st.store p).idx).toNat (hLen st - 1)) ((st.store p).idx).toNat (hLen st - 1)).1 (hLen st - 1) :=
              remove_down_inv c st ((st.store p).idx).toNat h hlt hmv
            have hlend : hLen (heapDown c (hSwap c st ((st.store p).idx).toNat (hLen st - 1)) ((st.store p).idx).toNat (hLen st - 1)).1 = hLen st := by
              rw [hLen_heapDown, hLen_hSwap]
            have hpair := Except.ok.inj hok
            rw [hPopInner_pos (heapDown c (hSwap c st ((st.store p).idx).toNat (hLen st - 1)) ((st.store p).idx).toNat (hLen st - 1)).1 (by rw [hlend]; omega)] at hpair
            injection hpair with h1 h2
            subst h1
            have hti := take_state_inv c (heapDown c (hSwap c st ((st.store p).idx).toNat (hLen st - 1)) ((st.store p).idx).toNat (hLen st - 1)).1 (by rw [hlend]; omega)
              (by rw [hlend]; exact hinv2)
            exact ⟨hti.1, by rw [hti.2, hlend]⟩
          · rw [if_neg hmv] at hok
            have hinv2 : heapInv c (heapUp c (heapDown c (hSwap c st ((st.store p).idx).toNat (hLen st - 1)) ((st.store p).idx).toNat (hLen st - 1)).1 ((st.store p).idx).toNat) (hLen st - 1) :=
              remove_up_inv c st ((st.store p).idx).toNat h hlt hmv
            have hlend : hLen (heapUp c (heapDown c (hSwap c st ((st.store p).idx).toNat (hLen st - 1)) ((st.store p).idx).toNat (hLen st - 1)).1 ((st.store p).idx).toNat) = hLen st := by
              rw [hLen_heapUp, hLen_heapDown, hLen_hSwap]
            have hpair := Except.ok.inj hok
            rw [hPopInner_pos _ (by rw [hlend]; omega)] at hpair
            injection hpair with h1 h2
            subst h1
            have hti := take_state_inv c (heapUp c (heapDown c (hSwap c st ((st.store p).idx).toNat (hLen st - 1)) ((st.store p).idx).toNat (hLen st - 1)).1 ((st.store p).idx).toNat)
              (by rw [hlend]; omega) (by rw [hlend]; exact hinv2)
            exact ⟨hti.1, by rw [hti.2, hlend]⟩
        · rw [if_neg hbr2] at hok
          exact absurd hok (by simp)

/-! ### Position-field consistency machinery -/

theorem get_eq_ptrAt (st : HState K) (m : Nat) (hm : m < st.slice.length) :
    st.slice.get ⟨m, hm⟩ = ptrAt st m := by
  show _ = st.slice.getD m 0
  rw [List.getD_eq_getElem?_getD, List.getElem?_eq_getElem hm]
  rfl

theorem nodup_ptrAt_ne (st : HState K) (hnd : st.slice.Nodup) (x y : Nat)
    (hx : x < hLen st) (hy : y < hLen st) (hne : x ≠ y) :
    ptrAt st x ≠ ptrAt st y := by
  intro he
  rw [List.nodup_iff_injective_get] at hnd
  have hfe : (⟨x, hx⟩ : Fin st.slice.length) = ⟨y, hy⟩ :=
    hnd (by rw [get_eq_ptrAt st x hx, get_eq_ptrAt st y hy]; exact he)
  exact hne (congrArg Fin.val hfe)

theorem nodup_hSwap (c : Cfg) (st : HState K) (i j : Nat) (hi : i < hLen st)
    (hj : j < hLen st) (h : st.slice.Nodup) : (hSwap c st i j).slice.Nodup := by
  have hlen : (hSwap c st i j).slice.length = st.slice.length := hLen_hSwap c st i j
  have hinj : ∀ x y, x < hLen st → y < hLen st → ptrAt st x = ptrAt st y → x = y := by
    intro x y hx hy he
    by_contra hne
    exact nodup_ptrAt_ne st h x y hx hy hne he
  rw [List.nodup_iff_injective_get]
  intro a b heq
  have ha2 : a.val < st.slice.length := by
    have := a.isLt
    omega
  have hb2 : b.val < st.slice.length := by
    have := b.isLt
    omega
  have hga : (hSwap c st i j).slice.get a = ptrAt (hSwap c st i j) a.val :=
    get_eq_ptrAt (hSwap c st i j) a.val a.isLt
  have hgb : (hSwap c st i j).slice.get b = ptrAt (hSwap c st i j) b.val :=
    get_eq_ptrAt (hSwap c st i j) b.val b.isLt
  rw [hga, hgb, ptrAt_hSwap c st i j a.val hi hj,
    ptrAt_hSwap c st i j b.val hi hj] at heq
  refine Fin.ext ?_
  by_cases haj : a.val = j
  · rw [if_pos haj] at heq
    by_cases hbj : b.val = j
    · omega
    · rw [if_neg hbj] at heq
      by_cases hbi : b.val = i
      · rw [if_pos hbi] at heq
        have := hinj i j hi hj heq
        omega
      · rw [if_neg hbi] at heq
        have := hinj i b.val hi hb2 heq
        omega
  · rw [if_neg haj] at heq
    by_cases hai : a.val = i
    · rw [if_pos hai] at heq
      by_cases hbj : b.val = j
      · rw [if_pos hbj] at heq
        have := hinj j i hj hi heq
        omega
      · rw [if_neg hbj] at heq
        by_cases hbi : b.val = i
        · omega
        · rw [if_neg hbi] at heq
          have := hinj j b.val hj hb2 heq
          omega
    · rw [if_neg hai] at heq
      by_cases hbj : b.val = j
      · rw [if_pos hbj] at heq
        have := hinj a.val i ha2 hi heq
        omega
      · rw [if_neg hbj] at heq
        by_cases hbi : b.val = i
        · rw [if_pos hbi] at heq
          have := hinj a.val j ha2 hj heq
          omega
        · rw [if_neg hbi] at heq
          have := hinj a.val b.val ha2 hb2 heq
          omega

theorem store_setIdx (st : HState K) (p : Nat) (v : Int) (q : Nat) :
    (setIdx st p v).store q =
      if q = p then { st.store q with idx := v } else st.store q := by
  show (if q = p then { st.store p with idx := v } else st.store q) = _
  by_cases h : q = p
  · rw [if_pos h, if_pos h, h]
  · rw [if_neg h, if_neg h]

/-- `ptrAt` in a state whose slice is the two-entry exchange of `st`,
regardless of the accompanying store. -/
theorem ptrAt_swapSlice (st : HState K) (f : Nat → Rec K) (i j m : Nat)
    (hi : i < hLen st) (hj : j < hLen st) :
    ptrAt (⟨f, (st.slice.set i (ptrAt st j)).set j (ptrAt st i)⟩ : HState K) m =
      if m = j then ptrAt st i else if m = i then ptrAt st j else ptrAt st m := by
  show ((st.slice.set i (ptrAt st j)).set j (ptrAt st i)).getD m 0 = _
  rw [List.getD_eq_getElem?_getD, List.getElem?_set]
  by_cases hmj : j = m
  · rw [if_pos hmj,
      if_pos (show j < (st.slice.set i (ptrAt st j)).length by
        rw [List.length_set]; exact hj),
      if_pos hmj.symm]
    rfl
  · rw [if_neg hmj, if_neg (fun hcc => hmj hcc.symm), List.getElem?_set]
    by_cases hmi : i = m
    · rw [if_pos hmi, if_pos (show i < st.slice.length from hi), if_pos hmi.symm]
      rfl
    · rw [if_neg hmi, if_neg (fun hcc => hmi hcc.symm), ← List.getD_eq_getElem?_getD]
      rfl

/-- Store contents after `Swap(i, j)` with the index field configured:
the occupant that lands at offset `j` gets index `j`, the one that lands
at `i` gets index `i`, every other record is untouched. -/
theorem store_hSwap (c : Cfg) (st : HState K) (i j : Nat) (hc : c.hasIndex = true)
    (hi : i < hLen st) (hj : j < hLen st) (q : Nat) :
    (hSwap c st i j).store q =
      if q = ptrAt st i then { st.store q with idx := Int.ofNat j }
      else if q = ptrAt st j ∧ ¬ i = j then { st.store q with idx := Int.ofNat i }
      else st.store q := by
  obtain ⟨mh, hx⟩ := c
  cases hx
  · exact Bool.noConfusion hc
  · show (setIdx
        (setIdx (⟨st.store, (st.slice.set i (ptrAt st j)).set j (ptrAt st i)⟩ : HState K)
          (ptrAt (⟨st.store, (st.slice.set i (ptrAt st j)).set j (ptrAt st i)⟩ : HState K) i)
          (Int.ofNat i))
        (ptrAt (⟨st.store, (st.slice.set i (ptrAt st j)).set j (ptrAt st i)⟩ : HState K) j)
        (Int.ofNat j)).store q = _
    have hPJ := ptrAt_swapSlice st st.store i j j hi hj
    have hPI := ptrAt_swapSlice st st.store i j i hi hj
    rw [if_pos rfl] at hPJ
    simp only [store_setIdx]
    rw [hPJ]
    by_cases hij : i = j
    · rw [if_pos hij] at hPI
      simp only [hPI]
      by_cases h1 : q = ptrAt st i
      · rw [if_pos h1, if_pos h1, if_pos h1]
      · rw [if_neg h1, if_neg h1, if_neg h1, if_neg (fun hand => hand.2 hij)]
    · rw [if_neg hij, if_pos rfl] at hPI
      simp only [hPI]
      by_cases h1 : q = ptrAt st i
      · rw [if_pos h1, if_pos h1]
        by_cases h2 : q = ptrAt st j
        · rw [if_pos h2]
        · rw [if_neg h2]
      · rw [if_neg h1, if_neg h1]
        by_cases h2 : q = ptrAt st j
        · rw [if_pos h2, if_pos ⟨h2, hij⟩]
        · rw [if_neg h2, if_neg (fun hand => h2 hand.1)]

/-- `Swap` keeps the index fields consistent: the two moved records are
restamped with their new offsets and nobody else moves. -/
theorem idxOK_hSwap (c : Cfg) (st : HState K) (i j : Nat)
    (hi : i < hLen st) (hj : j < hLen st) (hnd : st.slice.Nodup)
    (hok : idxOK c st) : idxOK c (hSwap c st i j) := by
  intro hc m hm
  rw [hLen_hSwap] at hm
  show ((hSwap c st i j).store (ptrAt (hSwap c st i j) m)).idx = _
  rw [ptrAt_hSwap c st i j m hi hj]
  by_cases hmj : m = j
  · rw [if_pos hmj, store_hSwap c st i j hc hi hj, if_pos rfl]
    show Int.ofNat j = Int.ofNat m
    rw [hmj]
  · rw [if_neg hmj]
    by_cases hmi : m = i
    · rw [if_pos hmi, store_hSwap c st i j hc hi hj]
      have hij : ¬ i = j := fun hcc => hmj (hmi.trans hcc)
      have hne : ptrAt st j ≠ ptrAt st i :=
        nodup_ptrAt_ne st hnd j i hj hi (fun hcc => hij hcc.symm)
      rw [if_neg hne, if_pos ⟨rfl, hij⟩]
      show Int.ofNat i = Int.ofNat m
      rw [hmi]
    · rw [if_neg hmi, store_hSwap c st i j hc hi hj]
      have h1 : ptrAt st m ≠ ptrAt st i := nodup_ptrAt_ne st hnd m i hm hi hmi
      have h2 : ¬ (ptrAt st m = ptrAt st j ∧ ¬ i = j) := fun hand =>
        nodup_ptrAt_ne st hnd m j hm hj hmj hand.1
      rw [if_neg h1, if_neg h2]
      exact hok hc m hm

theorem WFidx_hSwap (c : Cfg) (st : HState K) (i j : Nat)
    (hi : i < hLen st) (hj : j < hLen st) (hwf : WFidx c st) :
    WFidx c (hSwap c st i j) :=
  ⟨nodup_hSwap c st i j hi hj hwf.1, idxOK_hSwap c st i j hi hj hwf.1 hwf.2⟩

theorem WFidx_heapDownGo (c : Cfg) (fuel : Nat) :
    ∀ (st : HState K) (i n : Nat), n ≤ hLen st → WFidx c st →
      WFidx c (heapDownGo c fuel st i n).1 := by
  induction fuel with
  | zero => intro st i n _ h; exact h
  | succ fuel ih =>
    intro st i n hn h
    unfold heapDownGo
    split
    · rename_i h1
      split
      · rename_i h2
        split
        · exact ih _ (2*i+2) n (by rw [hLen_hSwap]; exact hn)
            (WFidx_hSwap c st i (2*i+2) (by omega) (by omega) h)
        · exact h
      · split
        · exact ih _ (2*i+1) n (by rw [hLen_hSwap]; exact hn)
            (WFidx_hSwap c st i (2*i+1) (by omega) (by omega) h)
        · exact h
    · exact h

theorem WFidx_heapDown (c : Cfg) (st : HState K) (i n : Nat) (hn : n ≤ hLen st)
    (hwf : WFidx c st) : WFidx c (heapDown c st i n).1 :=
  WFidx_heapDownGo c (n-i) st i n hn hwf

theorem WFidx_heapUpGo (c : Cfg) (fuel : Nat) :
    ∀ (st : HState K) (j : Nat), j < hLen st → WFidx c st →
      WFidx c (heapUpGo c fuel st j) := by
  induction fuel with
  | zero => intro st j _ h; exact h
  | succ fuel ih =>
    intro st j hj h
    unfold heapUpGo
    split
    · exact h
    · rename_i hcond
      have hj1 : ¬ (j-1)/2 = j := fun hcc => hcond (Or.inl hcc)
      exact ih _ ((j-1)/2) (by rw [hLen_hSwap]; omega)
        (WFidx_hSwap c st ((j-1)/2) j (by omega) hj h)

theorem WFidx_heapUp (c : Cfg) (st : HState K) (j : Nat) (hj : j < hLen st)
    (hwf : WFidx c st) : WFidx c (heapUp c st j) :=
  WFidx_heapUpGo c j st j hj hwf

theorem WFidx_heapInitAux (c : Cfg) :
    ∀ (k : Nat) (st : HState K) (n : Nat), n ≤ hLen st → WFidx c st →
      WFidx c (heapInitAux c st k n) := by
  intro k
  induction k with
  | zero => intro st n _ h; exact h
  | succ k ih =>
    intro st n hn h
    unfold heapInitAux
    exact ih _ n (by rw [hLen_heapDown]; exact hn) (WFidx_heapDown c st k n hn h)

/-- `heap.Init` preserves distinctness of the stored handles and
index-field consistency. -/
theorem WFidx_heapInit (c : Cfg) (st : HState K) (hwf : WFidx c st) :
    WFidx c (heapInit c st) :=
  WFidx_heapInitAux c (hLen st / 2) st (hLen st) (Nat.le_refl _) hwf

theorem ptrAt_mem (st : HState K) (m : Nat) (hm : m < hLen st) :
    ptrAt st m ∈ st.slice := by
  show st.slice.getD m 0 ∈ st.slice
  rw [List.getD_eq_getElem?_getD, List.getElem?_eq_getElem hm]
  exact List.getElem_mem hm

theorem WFidx_take (c : Cfg) (st : HState K) (k : Nat) (hwf : WFidx c st) :
    WFidx c (⟨st.store, st.slice.take k⟩ : HState K) := by
  constructor
  · exact hwf.1.sublist (List.take_sublist k st.slice)
  · intro hc m hm
    have hm2 : m < k ∧ m < hLen st := by
      have : m < (st.slice.take k).length := hm
      rw [List.length_take] at this
      unfold hLen
      omega
    show ((⟨st.store, st.slice.take k⟩ : HState K).store
      (ptrAt (⟨st.store, st.slice.take k⟩ : HState K) m)).idx = _
    rw [ptrAt_take st k m hm2.1]
    exact hwf.2 hc m hm2.2

theorem WFidx_hPopInner (c : Cfg) (st : HState K) (hwf : WFidx c st) :
    WFidx c (hPopInner st).1 := by
  unfold hPopInner
  by_cases h0 : hLen st = 0
  · rw [if_pos h0]
    exact hwf
  · rw [if_neg h0]
    exact WFidx_take c st _ hwf

theorem store_hPushInner_true (c : Cfg) (st : HState K) (p : Nat)
    (hc : c.hasIndex = true) (q : Nat) :
    (hPushInner c st p).store q =
      if q = p then { st.store q with idx := Int.ofNat (hLen st) }
      else st.store q := by
  obtain ⟨mh, hx⟩ := c
  cases hx
  · exact Bool.noConfusion hc
  · show (setIdx st p (Int.ofNat (hLen st))).store q = _
    exact store_setIdx st p _ q

/-- The inner `Push` of a record not already on the heap keeps the
handles distinct and, with an index field, stamps the new record with the
append offset, leaving every other index field alone. -/
theorem WFidx_hPushInner (c : Cfg) (st : HState K) (p : Nat) (hp : p ∉ st.slice)
    (hwf : WFidx c st) : WFidx c (hPushInner c st p) := by
  have hsl : (hPushInner c st p).slice = st.slice ++ [p] := by
    unfold hPushInner
    cases hc : c.hasIndex <;> simp [slice_setIdx]
  constructor
  · rw [hsl]
    exact hwf.1.append (List.nodup_singleton p) (List.disjoint_singleton.mpr hp)
  · intro hc m hm
    have hlen : hLen (hPushInner c st p) = hLen st + 1 := hLen_hPushInner c st p
    rw [hlen] at hm
    show ((hPushInner c st p).store (ptrAt (hPushInner c st p) m)).idx = Int.ofNat m
    by_cases hmlen : m < hLen st
    · have hptr : ptrAt (hPushInner c st p) m = ptrAt st m := by
        show (hPushInner c st p).slice.getD m 0 = st.slice.getD m 0
        rw [hsl, List.getD_eq_getElem?_getD, List.getD_eq_getElem?_getD,
          List.getElem?_append, if_pos (show m < st.slice.length from hmlen)]
      rw [hptr, store_hPushInner_true c st p hc,
        if_neg (fun he => hp (show p ∈ st.slice by
          rw [← he]; exact ptrAt_mem st m hmlen))]
      exact hwf.2 hc m hmlen
    · have hmeq : m = hLen st := by omega
      have hptr : ptrAt (hPushInner c st p) m = p := by
        show (hPushInner c st p).slice.getD m 0 = p
        rw [hsl, hmeq]
        show (st.slice ++ [p]).getD st.slice.length 0 = p
        rw [List.getD_eq_getElem?_getD, List.getElem?_concat_length]
        rfl
      rw [hptr, store_hPushInner_true c st p hc, if_pos rfl]
      show Int.ofNat (hLen st) = Int.ofNat m
      rw [hmeq]

theorem WFidx_heapPushOp (c : Cfg) (st : HState K) (p : Nat) (hp : p ∉ st.slice)
    (hwf : WFidx c st) : WFidx c (heapPushOp c st p) := by
  show WFidx c (heapUp c (hPushInner c st p) (hLen (hPushInner c st p) - 1))
  exact WFidx_heapUp c _ _ (by rw [hLen_hPushInner]; omega)
    (WFidx_hPushInner c st p hp hwf)

theorem popExported_WF (c : Cfg) {st st' : HState K} {r : Option Nat}
    (hwf : WFidx c st) (hok : popExported c st = .ok (st', r)) :
    WFidx c st' := by
  unfold popExported at hok
  by_cases h0 : hLen st = 0
  · rw [if_pos h0] at hok
    exact absurd hok (by simp)
  · rw [if_neg h0] at hok
    have hok2 : (Except.ok
        (hPopInner ((heapDown c (hSwap c st 0 (hLen st - 1)) 0 (hLen st - 1)).1)) :
          Except String (HState K × Option Nat)) =
        Except.ok (st', r) := hok
    have hpair := Except.ok.inj hok2
    have hw1 : WFidx c (hSwap c st 0 (hLen st - 1)) :=
      WFidx_hSwap c st 0 (hLen st - 1) (by omega) (by omega) hwf
    have hlen1 : hLen (hSwap c st 0 (hLen st - 1)) = hLen st := hLen_hSwap c st 0 _
    have hw2 : WFidx c ((heapDown c (hSwap c st 0 (hLen st - 1)) 0 (hLen st - 1)).1) :=
      WFidx_heapDown c _ 0 (hLen st - 1) (by omega) hw1
    have hw3 : WFidx c
        (hPopInner ((heapDown c (hSwap c st 0 (hLen st - 1)) 0 (hLen st - 1)).1)).1 :=
      WFidx_hPopInner c _ hw2
    rw [hpair] at hw3
    exact hw3

theorem removeExported_WF (c : Cfg) {st st' : HState K} {u : GoVal} {r : Option Nat}
    (hwf : WFidx c st) (hok : removeExported c st u = .ok (st', r)) :
    WFidx c st' := by
  unfold removeExported at hok
  by_cases hidx : c.hasIndex = false
  · rw [if_pos hidx] at hok
    exact absurd hok (by simp)
  · rw [if_neg hidx] at hok
    cases u with
    | otherArg t => exact absurd hok (by simp)
    | recArg p =>
      replace hok : (if (st.store p).idx = (hLen st : Int) - 1
          then (Except.ok (hPopInner st) : Except String (HState K × Option Nat))
          else if 0 ≤ (st.store p).idx ∧ (st.store p).idx < (hLen st : Int) then
            Except.ok (hPopInner
              (if ((st.store p).idx).toNat < (heapDown c (hSwap c st ((st.store p).idx).toNat (hLen st - 1)) ((st.store p).idx).toNat (hLen st - 1)).2 then (heapDown c (hSwap c st ((st.store p).idx).toNat (hLen st - 1)) ((st.store p).idx).toNat (hLen st - 1)).1 else heapUp c (heapDown c (hSwap c st ((st.store p).idx).toNat (hLen st - 1)) ((st.store p).idx).toNat (hLen st - 1)).1 ((st.store p).idx).toNat))
          else Except.error "panic: index out of range") = Except.ok (st', r) := hok
      by_cases hbr1 : (st.store p).idx = (hLen st : Int) - 1
      · rw [if_pos hbr1] at hok
        have hpair := Except.ok.inj hok
        have hw1 : WFidx c (hPopInner st).1 := WFidx_hPopInner c st hwf
        rw [hpair] at hw1
        exact hw1
      · rw [if_neg hbr1] at hok
        by_cases hbr2 : 0 ≤ (st.store p).idx ∧ (st.store p).idx < (hLen st : Int)
        · rw [if_pos hbr2] at hok
          have hlt : ((st.store p).idx).toNat < hLen st - 1 := by omega
          have hw1 : WFidx c (hSwap c st ((st.store p).idx).toNat (hLen st - 1)) :=
            WFidx_hSwap c st _ _ (by omega) (by omega) hwf
          have hlen1 : hLen (hSwap c st ((st.store p).idx).toNat (hLen st - 1)) =
              hLen st := hLen_hSwap c st _ _
          have hw2 : WFidx c ((heapDown c
              (hSwap c st ((st.store p).idx).toNat (hLen st - 1))
              ((st.store p).idx).toNat (hLen st - 1)).1) :=
            WFidx_heapDown c _ _ (hLen st - 1) (by omega) hw1
          have hlen2 : hLen ((heapDown c
              (hSwap c st ((st.store p).idx).toNat (hLen st - 1))
              ((st.store p).idx).toNat (hLen st - 1)).1) = hLen st := by
            rw [hLen_heapDown, hlen1]
          have hw3 : WFidx c (if ((st.store p).idx).toNat < (heapDown c (hSwap c st ((st.store p).idx).toNat (hLen st - 1)) ((st.store p).idx).toNat (hLen st - 1)).2 then (heapDown c (hSwap c st ((st.store p).idx).toNat (hLen st - 1)) ((st.store p).idx).toNat (hLen st - 1)).1 else heapUp c (heapDown c (hSwap c st ((st.store p).idx).toNat (hLen st - 1)) ((st.store p).idx).toNat (hLen st - 1)).1 ((st.store p).idx).toNat) := by
            by_cases hmv : ((st.store p).idx).toNat < (heapDown c (hSwap c st ((st.store p).idx).toNat (hLen st - 1)) ((st.store p).idx).toNat (hLen st - 1)).2
            · rw [if_pos hmv]
              exact hw2
            · rw [if_neg hmv]
              exact WFidx_heapUp c _ _ (by omega) hw2
          have hpair := Except.ok.inj hok
          have hw4 := WFidx_hPopInner c _ hw3
          rw [hpair] at hw4
          exact hw4
        · rw [if_neg hbr2] at hok
          exact absurd hok (by simp)

/-- Any chain of completed exported calls whose pushes use fresh handles
preserves well-formedness of the index bookkeeping. -/
theorem ReachF_WF (c : Cfg) {st st' : HState K} (hwf : WFidx c st)
    (hr : ReachF c st st') : WFidx c st' := by
  induction hr with
  | refl => exact hwf
  | push st2 p hr hfresh ih => exact WFidx_heapPushOp c st2 p hfresh ih
  | pop st2 st3 r hr hok ih => exact popExported_WF c ih hok
  | rem st2 st3 u r hr hok ih => exact removeExported_WF c ih hok

/-- With an index field configured, well-formed index bookkeeping gives
the claim's reading of consistency: following any stored record's index
field through the slice leads back to that record. -/
theorem WFidx_posConsistent (c : Cfg) (st : HState K) (hc : c.hasIndex = true)
    (hwf : WFidx c st) : ∀ p ∈ st.slice, ptrAt st ((st.store p).idx).toNat = p := by
  intro p hp
  obtain ⟨n, hn⟩ := List.get_of_mem hp
  have hlt : n.val < hLen st := n.isLt
  have hpn : ptrAt st n.val = p := by
    rw [← hn]
    exact (get_eq_ptrAt st n.val n.isLt).symm
  have hidx : (st.store p).idx = Int.ofNat n.val := by
    rw [← hpn]
    exact hwf.2 hc n.val hlt
  rw [hidx]
  exact hpn

/-! ### Frame of the record store: nothing but index fields is written -/

theorem storeOther_setIdx (st : HState K) (p : Nat) (v : Int) (q : Nat) :
    ((setIdx st p v).store q).other = (st.store q).other := by
  unfold setIdx
  by_cases h : q = p <;> simp [h]

theorem storeOther_hSwap (c : Cfg) (st : HState K) (i j q : Nat) :
    ((hSwap c st i j).store q).other = (st.store q).other := by
  unfold hSwap
  cases hc : c.hasIndex <;> simp [storeOther_setIdx]

theorem store_hSwap_false (c : Cfg) (st : HState K) (i j : Nat)
    (hc : c.hasIndex = false) (q : Nat) :
    (hSwap c st i j).store q = st.store q := by
  obtain ⟨mh, hx⟩ := c
  cases hx
  · rfl
  · exact Bool.noConfusion hc

theorem storeOther_heapDownGo (c : Cfg) (fuel : Nat) :
    ∀ (st : HState K) (i n q : Nat),
      (((heapDownGo c fuel st i n).1).store q).other = (st.store q).other := by
  induction fuel with
  | zero => intro st i n q; rfl
  | succ fuel ih =>
    intro st i n q
    unfold heapDownGo
    split
    · split
      · split
        · rw [ih, storeOther_hSwap]
        · rfl
      · split
        · rw [ih, storeOther_hSwap]
        · rfl
    · rfl

theorem store_heapDownGo_false (c : Cfg) (hc : c.hasIndex = false) (fuel : Nat) :
    ∀ (st : HState K) (i n q : Nat),
      (((heapDownGo c fuel st i n).1).store q) = st.store q := by
  induction fuel with
  | zero => intro st i n q; rfl
  | succ fuel ih =>
    intro st i n q
    unfold heapDownGo
    split
    · split
      · split
        · rw [ih, store_hSwap_false c st i (2*i+2) hc]
        · rfl
      · split
        · rw [ih, store_hSwap_false c st i (2*i+1) hc]
        · rfl
    · rfl

theorem storeOther_heapDown (c : Cfg) (st : HState K) (i n q : Nat) :
    (((heapDown c st i n).1).store q).other = (st.store q).other :=
  storeOther_heapDownGo c (n-i) st i n q

theorem store_heapDown_false (c : Cfg) (hc : c.hasIndex = false)
    (st : HState K) (i n q : Nat) :
    (((heapDown c st i n).1).store q) = st.store q :=
  store_heapDownGo_false c hc (n-i) st i n q

theorem storeOther_heapUpGo (c : Cfg) (fuel : Nat) :
    ∀ (st : HState K) (j q : Nat),
      ((heapUpGo c fuel st j).store q).other = (st.store q).other := by
  induction fuel with
  | zero => intro st j q; rfl
  | succ fuel ih =>
    intro st j q
    unfold heapUpGo
    split
    · rfl
    · rw [ih, storeOther_hSwap]

theorem store_heapUpGo_false (c : Cfg) (hc : c.hasIndex = false) (fuel : Nat) :
    ∀ (st : HState K) (j q : Nat),
      ((heapUpGo c fuel st j).store q) = st.store q := by
  induction fuel with
  | zero => intro st j q; rfl
  | succ fuel ih =>
    intro st j q
    unfold heapUpGo
    split
    · rfl
    · rw [ih, store_hSwap_false c st ((j-1)/2) j hc]

theorem storeKey_heapUp (c : Cfg) (st : HState K) (j q : Nat) :
    ((heapUp c st j).store q).key = (st.store q).key :=
  storeKey_heapUpGo c j st j q

theorem storeOther_heapUp (c : Cfg) (st : HState K) (j q : Nat) :
    ((heapUp c st j).store q).other = (st.store q).other :=
  storeOther_heapUpGo c j st j q

theorem store_heapUp_false (c : Cfg) (hc : c.hasIndex = false)
    (st : HState K) (j q : Nat) :
    ((heapUp c st j).store q) = st.store q :=
  store_heapUpGo_false c hc j st j q

theorem storeKey_heapInitAux (c : Cfg) :
    ∀ (k : Nat) (st : HState K) (n q : Nat),
      ((heapInitAux c st k n).store q).key = (st.store q).key := by
  intro k
  induction k with
  | zero => intro st n q; rfl
  | succ k ih =>
    intro st n q
    unfold heapInitAux
    rw [ih, storeKey_heapDown]

theorem storeOther_heapInitAux (c : Cfg) :
    ∀ (k : Nat) (st : HState K) (n q : Nat),
      ((heapInitAux c st k n).store q).other = (st.store q).other := by
  intro k
  induction k with
  | zero => intro st n q; rfl
  | succ k ih =>
    intro st n q
    unfold heapInitAux
    rw [ih, storeOther_heapDown]

theorem store_heapInitAux_false (c : Cfg) (hc : c.hasIndex = false) :
    ∀ (k : Nat) (st : HState K) (n q : Nat),
      ((heapInitAux c st k n).store q) = st.store q := by
  intro k
  induction k with
  | zero => intro st n q; rfl
  | succ k ih =>
    intro st n q
    unfold heapInitAux
    rw [ih, store_heapDown_false c hc]

theorem storeKey_heapInit (c : Cfg) (st : HState K) (q : Nat) :
    ((heapInit c st).store q).key = (st.store q).key :=
  storeKey_heapInitAux c (hLen st / 2) st (hLen st) q

theorem storeOther_heapInit (c : Cfg) (st : HState K) (q : Nat) :
    ((heapInit c st).store q).other = (st.store q).other :=
  storeOther_heapInitAux c (hLen st / 2) st (hLen st) q

theorem store_heapInit_false (c : Cfg) (hc : c.hasIndex = false)
    (st : HState K) (q : Nat) :
    ((heapInit c st).store q) = st.store q :=
  store_heapInitAux_false c hc (hLen st / 2) st (hLen st) q

theorem storeKey_hPushInner (c : Cfg) (st : HState K) (p q : Nat) :
    ((hPushInner c st p).store q).key = (st.store q).key := by
  unfold hPushInner
  cases hc : c.hasIndex <;> simp [storeKey_setIdx]

theorem storeOther_hPushInner (c : Cfg) (st : HState K) (p q : Nat) :
    ((hPushInner c st p).store q).other = (st.store q).other := by
  unfold hPushInner
  cases hc : c.hasIndex <;> simp [storeOther_setIdx]

theorem store_hPushInner_false (c : Cfg) (st : HState K) (p : Nat)
    (hc : c.hasIndex = false) (q : Nat) :
    (hPushInner c st p).store q = st.store q := by
  obtain ⟨mh, hx⟩ := c
  cases hx
  · rfl
  · exact Bool.noConfusion hc

theorem store_hPopInner (st : HState K) (q : Nat) :
    (((hPopInner st).1).store q) = st.store q := by
  unfold hPopInner
  by_cases h0 : hLen st = 0
  · rw [if_pos h0]
  · rw [if_neg h0]

/-- The full `heap.Push` driver writes no key and no `other` field, and
with no index field configured writes no record field at all. -/
theorem frame_heapPushOp (c : Cfg) (st : HState K) (p q : Nat) :
    ((heapPushOp c st p).store q).key = (st.store q).key ∧
    ((heapPushOp c st p).store q).other = (st.store q).other ∧
    (c.hasIndex = false → (heapPushOp c st p).store q = st.store q) := by
  refine ⟨?_, ?_, ?_⟩
  · show ((heapUp c (hPushInner c st p) (hLen (hPushInner c st p) - 1)).store q).key = _
    rw [storeKey_heapUp, storeKey_hPushInner]
  · show ((heapUp c (hPushInner c st p) (hLen (hPushInner c st p) - 1)).store q).other = _
    rw [storeOther_heapUp, storeOther_hPushInner]
  · intro hc
    show (heapUp c (hPushInner c st p) (hLen (hPushInner c st p) - 1)).store q = _
    rw [store_heapUp_false c hc, store_hPushInner_false c st p hc]

/-- A completed exported `Pop` writes no key and no `other` field, and
with no index field configured writes no record field at all. -/
theorem popExported_frame (c : Cfg) {st st' : HState K} {r : Option Nat}
    (hok : popExported c st = .ok (st', r)) :
    ∀ q, ((st'.store q).key = (st.store q).key ∧
      (st'.store q).other = (st.store q).other) ∧
      (c.hasIndex = false → st'.store q = st.store q) := by
  unfold popExported at hok
  by_cases h0 : hLen st = 0
  · rw [if_pos h0] at hok
    exact absurd hok (by simp)
  · rw [if_neg h0] at hok
    have hok2 : (Except.ok
        (hPopInner ((heapDown c (hSwap c st 0 (hLen st - 1)) 0 (hLen st - 1)).1)) :
          Except String (HState K × Option Nat)) =
        Except.ok (st', r) := hok
    have hpair := Except.ok.inj hok2
    have h1 : (hPopInner
        ((heapDown c (hSwap c st 0 (hLen st - 1)) 0 (hLen st - 1)).1)).1 = st' :=
      congrArg Prod.fst hpair
    intro q
    rw [← h1, store_hPopInner]
    refine ⟨⟨?_, ?_⟩, ?_⟩
    · rw [storeKey_heapDown, storeKey_hSwap]
    · rw [storeOther_heapDown, storeOther_hSwap]
    · intro hc
      rw [store_heapDown_false c hc, store_hSwap_false c st 0 (hLen st - 1) hc]

/-- A completed exported `Remove` writes no key and no `other` field, and
with no index field configured it does not complete at all (it panics), so
the frame statement holds vacuously strongly there. -/
theorem removeExported_frame (c : Cfg) {st st' : HState K} {u : GoVal}
    {r : Option Nat} (hok : removeExported c st u = .ok (st', r)) :
    ∀ q, ((st'.store q).key = (st.store q).key ∧
      (st'.store q).other = (st.store q).other) ∧
      (c.hasIndex = false → st'.store q = st.store q) := by
  unfold removeExported at hok
  by_cases hidx : c.hasIndex = false
  · rw [if_pos hidx] at hok
    exact absurd hok (by simp)
  · rw [if_neg hidx] at hok
    cases u with
    | otherArg t => exact absurd hok (by simp)
    | recArg p =>
      replace hok : (if (st.store p).idx = (hLen st : Int) - 1
          then (Except.ok (hPopInner st) : Except String (HState K × Option Nat))
          else if 0 ≤ (st.store p).idx ∧ (st.store p).idx < (hLen st : Int) then
            Except.ok (hPopInner
              (if ((st.store p).idx).toNat < (heapDown c (hSwap c st ((st.store p).idx).toNat (hLen st - 1)) ((st.store p).idx).toNat (hLen st - 1)).2 then (heapDown c (hSwap c st ((st.store p).idx).toNat (hLen st - 1)) ((st.store p).idx).toNat (hLen st - 1)).1 else heapUp c (heapDown c (hSwap c st ((st.store p).idx).toNat (hLen st - 1)) ((st.store p).idx).toNat (hLen st - 1)).1 ((st.store p).idx).toNat))
          else Except.error "panic: index out of range") = Except.ok (st', r) := hok
      by_cases hbr1 : (st.store p).idx = (hLen st : Int) - 1
      · rw [if_pos hbr1] at hok
        have hpair := Except.ok.inj hok
        have h1 : (hPopInner st).1 = st' := congrArg Prod.fst hpair
        intro q
        rw [← h1, store_hPopInner]
        exact ⟨⟨rfl, rfl⟩, fun _ => rfl⟩
      · rw [if_neg hbr1] at hok
        by_cases hbr2 : 0 ≤ (st.store p).idx ∧ (st.store p).idx < (hLen st : Int)
        · rw [if_pos hbr2] at hok
          have hpair := Except.ok.inj hok
          have h1 : (hPopInner
              (if ((st.store p).idx).toNat < (heapDown c (hSwap c st ((st.store p).idx).toNat (hLen st - 1)) ((st.store p).idx).toNat (hLen st - 1)).2 then (heapDown c (hSwap c st ((st.store p).idx).toNat (hLen st - 1)) ((st.store p).idx).toNat (hLen st - 1)).1 else heapUp c (heapDown c (hSwap c st ((st.store p).idx).toNat (hLen st - 1)) ((st.store p).idx).toNat (hLen st - 1)).1 ((st.store p).idx).toNat)).1 = st' :=
            congrArg Prod.fst hpair
          intro q
          rw [← h1, store_hPopInner]
          by_cases hmv : ((st.store p).idx).toNat < (heapDown c (hSwap c st ((st.store p).idx).toNat (hLen st - 1)) ((st.store p).idx).toNat (hLen st - 1)).2
          · rw [if_pos hmv]
            refine ⟨⟨?_, ?_⟩, ?_⟩
            · rw [storeKey_heapDown, storeKey_hSwap]
            · rw [storeOther_heapDown, storeOther_hSwap]
            · intro hc
              rw [store_heapDown_false c hc,
                store_hSwap_false c st ((st.store p).idx).toNat (hLen st - 1) hc]
          · rw [if_neg hmv]
            refine ⟨⟨?_, ?_⟩, ?_⟩
            · rw [storeKey_heapUp, storeKey_heapDown, storeKey_hSwap]
            · rw [storeOther_heapUp, storeOther_heapDown, storeOther_hSwap]
            · intro hc
              rw [store_heapUp_false c hc, store_heapDown_false c hc,
                store_hSwap_false c st ((st.store p).idx).toNat (hLen st - 1) hc]
        · rw [if_neg hbr2] at hok
          exact absurd hok (by simp)

/-- Frame over any chain of completed exported calls. -/
theorem Reach_frame (c : Cfg) {st st' : HState K} (hr : Reach c st st') :
    ∀ q, ((st'.store q).key = (st.store q).key ∧
      (st'.store q).other = (st.store q).other) ∧
      (c.hasIndex = false → st'.store q = st.store q) := by
  induction hr with
  | refl => exact fun q => ⟨⟨rfl, rfl⟩, fun _ => rfl⟩
  | push st2 p hr ih =>
    intro q
    obtain ⟨⟨hk2, ho2⟩, hf2⟩ := ih q
    obtain ⟨hk1, ho1, hf1⟩ := frame_heapPushOp c st2 p q
    exact ⟨⟨hk1.trans hk2, ho1.trans ho2⟩,
      fun hc => (hf1 hc).trans (hf2 hc)⟩
  | pop st2 st3 r hr hok ih =>
    intro q
    obtain ⟨⟨hk2, ho2⟩, hf2⟩ := ih q
    obtain ⟨⟨hk1, ho1⟩, hf1⟩ := popExported_frame c hok q
    exact ⟨⟨hk1.trans hk2, ho1.trans ho2⟩,
      fun hc => (hf1 hc).trans (hf2 hc)⟩
  | rem st2 st3 u r hr hok ih =>
    intro q
    obtain ⟨⟨hk2, ho2⟩, hf2⟩ := ih q
    obtain ⟨⟨hk1, ho1⟩, hf1⟩ := removeExported_frame c hok q
    exact ⟨⟨hk1.trans hk2, ho1.trans ho2⟩,
      fun hc => (hf1 hc).trans (hf2 hc)⟩


/-- Bridge from the internal heap order to the claim's phrasing: the
parent is `Less` than the child or the two keys are equal. -/
theorem nwAt_to_claim (c : Cfg) (st : HState K) (i j : Nat) (h : nwAt c st i j) :
    hLess c st i j = true ∨ keyAtIdx st i = keyAtIdx st j := by
  unfold nwAt at h
  unfold hLess
  exact nwB_or_eq h

/-- The heap invariant is preserved by every completed exported call. -/
theorem Reach_inv (c : Cfg) {st st' : HState K} (h0 : heapInv c st (hLen st))
    (hr : Reach c st st') : heapInv c st' (hLen st') := by
  induction hr with
  | refl => exact h0
  | push st2 p hr ih => exact heapPushOp_inv c st2 p ih
  | pop st2 st3 r hr hok ih => exact (popExported_inv c ih hok).1
  | rem st2 st3 u r hr hok ih => exact (removeExported_inv c ih hok).1

/-- Every offset of a heap-ordered region is dominated by the root. -/
theorem root_best (c : Cfg) (st : HState K) (h : heapInv c st (hLen st)) :
    ∀ m, m < hLen st → nwB c (keyAtIdx st 0) (keyAtIdx st m) = true := by
  intro m
  induction m using Nat.strong_induction_on with
  | _ m ih =>
    intro hm
    rcases Nat.eq_zero_or_pos m with h0 | h0
    · rw [h0]; exact nwB_refl c _
    · have hpar := h m hm h0
      unfold nwAt at hpar
      exact nwB_trans (ih ((m-1)/2) (by omega) (by omega)) hpar

/-- On a nonempty heap the exported `Pop` completes and hands back the
record handle that was at the root. -/
theorem popExported_ok (c : Cfg) (st : HState K) (h0 : ¬ hLen st = 0) :
    ∃ st', popExported c st = .ok (st', some (ptrAt st 0)) := by
  unfold popExported
  rw [if_neg h0]
  have hbound : hLen st - 1 ≤ hLen (hSwap c st 0 (hLen st - 1)) := by
    rw [hLen_hSwap]; omega
  have hlen2 :
      hLen ((heapDown c (hSwap c st 0 (hLen st - 1)) 0 (hLen st - 1)).1) = hLen st := by
    rw [hLen_heapDown, hLen_hSwap]
  show ∃ st', (Except.ok
      (hPopInner ((heapDown c (hSwap c st 0 (hLen st - 1)) 0 (hLen st - 1)).1)) :
      Except String (HState K × Option Nat)) = Except.ok (st', some (ptrAt st 0))
  rw [hPopInner_pos ((heapDown c (hSwap c st 0 (hLen st - 1)) 0 (hLen st - 1)).1)
    (by omega), hlen2]
  rw [ptrAt_frame_heapDown c _ 0 (hLen st - 1) hbound _ (Nat.le_refl _),
    ptrAt_hSwap c st 0 (hLen st - 1) _ (by omega) (by omega), if_pos rfl]
  exact ⟨_, rfl⟩

theorem popSeq_succ (c : Cfg) (st : HState K) {st' : HState K} {p : Nat} (k : Nat)
    (hok : popExported c st = .ok (st', some p)) :
    popSeq c st (k+1) = (st'.store p).key :: popSeq c st' k := by
  show (match popExported c st with
    | .ok (st2, some q) => (st2.store q).key :: popSeq c st2 k
    | .ok (_, none) => []
    | .error _ => []) = _
  rw [hok]

/-- Popping `k` times off a heap yields keys in heap order, and every key
handed out was a key of the starting state. -/
theorem popSeq_sorted (c : Cfg) :
    ∀ (k : Nat) (st : HState K), heapInv c st (hLen st) → k ≤ hLen st →
      List.Pairwise (fun a b => nwB c a b = true) (popSeq c st k) ∧
      (∀ x ∈ popSeq c st k, ∃ m, m < hLen st ∧ x = keyAtIdx st m) := by
  intro k
  induction k with
  | zero =>
    intro st h hk
    refine ⟨List.Pairwise.nil, ?_⟩
    intro x hx
    exact absurd hx (List.not_mem_nil x)
  | succ k ih =>
    intro st h hk
    obtain ⟨st', hok⟩ := popExported_ok c st (by omega)
    obtain ⟨hinv', hlen', _, hstore, hperm⟩ := popExported_inv c h hok
    rw [popSeq_succ c st k hok]
    have hkey0 : (st'.store (ptrAt st 0)).key = keyAtIdx st 0 := by
      rw [hstore]; rfl
    obtain ⟨hpw, hmem⟩ := ih st' hinv' (by omega)
    constructor
    · refine List.Pairwise.cons ?_ hpw
      intro y hy
      obtain ⟨m, hm, hym⟩ := hmem y hy
      obtain ⟨m2, hm2, he2⟩ := hperm m hm
      rw [hkey0, hym, he2]
      exact root_best c st h m2 hm2
    · intro x hx
      rcases List.mem_cons.mp hx with hx | hx
      · rw [hx, hkey0]
        exact ⟨0, by omega, rfl⟩
      · obtain ⟨m, hm, hym⟩ := hmem x hx
        obtain ⟨m2, hm2, he2⟩ := hperm m hm
        exact ⟨m2, hm2, by rw [hym, he2]⟩

/-- Pushing any list of record handles preserves the heap invariant and
grows the heap by the number of pushes. -/
theorem pushSeq_inv (c : Cfg) (ps : List Nat) :
    ∀ st : HState K, heapInv c st (hLen st) →
      heapInv c (pushSeq c st ps) (hLen (pushSeq c st ps)) ∧
      hLen (pushSeq c st ps) = hLen st + ps.length := by
  induction ps with
  | nil =>
    intro st h
    exact ⟨h, rfl⟩
  | cons p rest ih =>
    intro st h
    obtain ⟨h1, h2⟩ := ih (heapPushOp c st p) (heapPushOp_inv c st p h)
    refine ⟨h1, ?_⟩
    show hLen (pushSeq c (heapPushOp c st p) rest) = hLen st + (p :: rest).length
    rw [h2, hLen_heapPushOp]
    simp only [List.length_cons]
    omega

/-! ### Lemmas about the constructor tag scan -/

theorem scanLoop_key_count (fs : List SField) :
    ∀ (acc : ScanAcc) (i : Nat) (acc' : ScanAcc), scanLoop acc i fs = .ok acc' →
      (keyTagCount fs + (if 0 ≤ acc.keyFieldIndex then 1 else 0) ≤ 1) ∧
      (0 ≤ acc'.keyFieldIndex ↔ (0 ≤ acc.keyFieldIndex ∨ 1 ≤ keyTagCount fs)) := by
  induction fs with
  | nil =>
    intro acc i acc' h
    unfold scanLoop at h
    injection h with h
    subst h
    constructor
    · simp only [keyTagCount, List.filter_nil, List.length_nil, Nat.zero_add]
      split <;> omega
    · simp [keyTagCount]
  | cons f rest ih =>
    intro acc i acc' h
    unfold scanLoop at h
    by_cases h0 : f.tag = ""
    · rw [if_pos h0] at h
      have := ih acc (i+1) acc' h
      simpa [keyTagCount, List.filter_cons, h0] using this
    · rw [if_neg h0] at h
      by_cases h1 : f.tag = "min" ∨ f.tag = "max"
      · rw [if_pos h1] at h
        by_cases h2 : ¬ f.pkgPath = ""
        · rw [if_pos h2] at h; exact absurd h (by simp)
        · rw [if_neg h2] at h
          by_cases h3 : 0 ≤ acc.keyFieldIndex
          · rw [if_pos h3] at h; exact absurd h (by simp)
          · rw [if_neg h3] at h
            cases hk : kindCmp f.kind with
            | none => rw [hk] at h; exact absurd h (by simp)
            | some sel =>
              rw [hk] at h
              have hrec := ih _ (i+1) acc' h
              have hcnt : keyTagCount (f :: rest) = keyTagCount rest + 1 := by
                have hpa : (f.tag == "min" || f.tag == "max") = true := by
                  rcases h1 with h1 | h1 <;> simp [h1]
                simp [keyTagCount, List.filter_cons, hpa]
              rcases hrec with ⟨ha, hb⟩
              have hpos : (0:Int) ≤ Int.ofNat i := Int.ofNat_nonneg i
              rw [if_pos hpos] at ha
              have hl : 0 ≤ acc'.keyFieldIndex := hb.mpr (Or.inl hpos)
              constructor
              · rw [hcnt, if_neg h3]; omega
              · rw [hcnt]
                constructor
                · intro _; right; omega
                · intro _; exact hl
      · rw [if_neg h1] at h
        have hcnt : keyTagCount (f :: rest) = keyTagCount rest := by
          have hpa : (f.tag == "min" || f.tag == "max") = false := by
            simp only [Bool.or_eq_false_iff, beq_eq_false_iff_ne, ne_eq]
            exact ⟨fun hc => h1 (Or.inl hc), fun hc => h1 (Or.inr hc)⟩
          simp [keyTagCount, List.filter_cons, hpa]
        by_cases h4 : f.tag = "index"
        · rw [if_pos h4] at h
          by_cases h5 : ¬ f.pkgPath = ""
          · rw [if_pos h5] at h; exact absurd h (by simp)
          · rw [if_neg h5] at h
            by_cases h6 : 0 ≤ acc.indexFieldIndex
            · rw [if_pos h6] at h; exact absurd h (by simp)
            · rw [if_neg h6] at h
              by_cases h7 : ¬ f.kind = RKind.kint
              · rw [if_pos h7] at h; exact absurd h (by simp)
              · rw [if_neg h7] at h
                rw [hcnt]
                exact ih { acc with indexFieldIndex := Int.ofNat i } (i+1) acc' h
        · rw [if_neg h4] at h
          exact absurd h (by simp)

theorem scanLoop_index_kint (fs : List SField) :
    ∀ (acc : ScanAcc) (i : Nat) (acc' : ScanAcc), scanLoop acc i fs = .ok acc' →
      ∀ f, f ∈ fs → f.tag = "index" → f.kind = RKind.kint := by
  induction fs with
  | nil => intro _ _ _ _ f hf; exact absurd hf (List.not_mem_nil f)
  | cons f rest ih =>
    intro acc i acc' h g hg htag
    unfold scanLoop at h
    rcases List.mem_cons.mp hg with hg | hg
    · subst hg
      rw [if_neg (by rw [htag]; intro hc; exact absurd hc.symm (by decide)), htag] at h
      rw [if_neg (by intro hc; rcases hc with hc | hc <;> exact absurd hc.symm (by decide))] at h
      rw [if_pos rfl] at h
      by_cases h5 : ¬ g.pkgPath = ""
      · rw [if_pos h5] at h; exact absurd h (by simp)
      · rw [if_neg h5] at h
        by_cases h6 : 0 ≤ acc.indexFieldIndex
        · rw [if_pos h6] at h; exact absurd h (by simp)
        · rw [if_neg h6] at h
          by_cases h7 : ¬ g.kind = RKind.kint
          · rw [if_pos h7] at h; exact absurd h (by simp)
          · exact not_not.mp h7
    · by_cases h0 : f.tag = ""
      · rw [if_pos h0] at h
        exact ih acc (i+1) acc' h g hg htag
      · rw [if_neg h0] at h
        by_cases h1 : f.tag = "min" ∨ f.tag = "max"
        · rw [if_pos h1] at h
          by_cases h2 : ¬ f.pkgPath = ""
          · rw [if_pos h2] at h; exact absurd h (by simp)
          · rw [if_neg h2] at h
            by_cases h3 : 0 ≤ acc.keyFieldIndex
            · rw [if_pos h3] at h; exact absurd h (by simp)
            · rw [if_neg h3] at h
              cases hk : kindCmp f.kind with
              | none => rw [hk] at h; exact absurd h (by simp)
              | some sel =>
                rw [hk] at h
                exact ih _ (i+1) acc' h g hg htag
        · rw [if_neg h1] at h
          by_cases h4 : f.tag = "index"
          · rw [if_pos h4] at h
            by_cases h5 : ¬ f.pkgPath = ""
            · rw [if_pos h5] at h; exact absurd h (by simp)
            · rw [if_neg h5] at h
              by_cases h6 : 0 ≤ acc.indexFieldIndex
              · rw [if_pos h6] at h; exact absurd h (by simp)
              · rw [if_neg h6] at h
                by_cases h7 : ¬ f.kind = RKind.kint
                · rw [if_pos h7] at h; exact absurd h (by simp)
                · rw [if_neg h7] at h
                  exact ih _ (i+1) acc' h g hg htag
          · rw [if_neg h4] at h
            exact absurd h (by simp)

/-! ### Claims C4 to C9 -/

/-- C1: for every container built by `New` (its storage heapified by
`heap.Init` over arbitrary, possibly non-empty initial contents) and every
sequence of completed `Push`/`Pop`/`Remove` calls on it, the backing slice
satisfies the binary-heap invariant after each call returns: for every
non-root offset `j` with parent `(j-1)/2`, either `Less(parent, j)` is
true or the two keys are equal.  The reflexive case of `Reach` is the
state immediately after construction. -/
theorem C1_heap_invariant (c : Cfg) (st0 st' : HState K)
    (hr : Reach c (heapInit c st0) st') :
    ∀ j, j < hLen st' → 0 < j →
      (hLess c st' ((j-1)/2) j = true ∨
        keyAtIdx st' ((j-1)/2) = keyAtIdx st' j) := by
  intro j hj hj0
  exact nwAt_to_claim c st' _ j
    (Reach_inv c (heapInit_inv c st0) hr j hj hj0)

/-- Container used for the C1 witness: a min-heap built over the two
records with keys 7 and 3. -/
def stC1 : HState Int := ⟨fun p => ⟨[7, 3].getD p 0, 0, 0⟩, [0, 1]⟩

/-- Witness for C1 at the freshly constructed two-element container. -/
theorem C1_witness :
    hLess (⟨true, false⟩ : Cfg) (heapInit ⟨true, false⟩ stC1) 0 1 = true ∨
      keyAtIdx (heapInit ⟨true, false⟩ stC1) 0 =
        keyAtIdx (heapInit ⟨true, false⟩ stC1) 1 :=
  C1_heap_invariant ⟨true, false⟩ stC1 (heapInit ⟨true, false⟩ stC1)
    (Reach.refl _) 1 (by decide) (by decide)

/-- C2: starting from any container state satisfying the heap invariant,
performing one `Push` per element of `ps` (arbitrary key values, supplied
through the records the pushed handles refer to) followed by that many
`Pop` calls yields a popped key sequence sorted according to the
configured direction: non-decreasing for a min-heap, non-increasing for a
max-heap. -/
theorem C2_pop_ordering (c : Cfg) (st : HState K)
    (hinv : heapInv c st (hLen st)) (ps : List Nat) :
    (c.minHeap = true →
      (popSeq c (pushSeq c st ps) ps.length).Sorted (· ≤ ·)) ∧
    (c.minHeap = false →
      (popSeq c (pushSeq c st ps) ps.length).Sorted (· ≥ ·)) := by
  obtain ⟨hinv2, hlen2⟩ := pushSeq_inv c ps st hinv
  obtain ⟨hpw, _⟩ := popSeq_sorted c ps.length (pushSeq c st ps) hinv2 (by omega)
  constructor
  · intro hmh
    exact hpw.imp (fun hab => by
      unfold nwB at hab
      rw [hmh] at hab
      simpa using hab)
  · intro hmh
    exact hpw.imp (fun hab => by
      unfold nwB at hab
      rw [hmh] at hab
      simpa using hab)

/-- Empty min-heap container used for the C2 witness; handles 1 and 2
carry keys 9 and 4. -/
def stC2 : HState Int := ⟨fun p => ⟨[0, 9, 4].getD p 0, 0, 0⟩, []⟩

/-- Witness for C2: two pushes then two pops on a concrete min-heap. -/
theorem C2_witness :
    (popSeq (⟨true, true⟩ : Cfg)
      (pushSeq ⟨true, true⟩ stC2 [1, 2]) 2).Sorted (· ≤ ·) :=
  (C2_pop_ordering ⟨true, true⟩ stC2
    (fun j hj _ => absurd hj (Nat.not_lt_zero j)) [1, 2]).1 rfl

/-- Min-heap configuration with an index field, used for claim C3. -/
def cC3 : Cfg := ⟨true, true⟩

/-- Initial contents for the C3 counterexample: two records, keys 1 and 3
already in heap order, both with position field 0 (as Go zero-initializes
them), occupying offsets 0 and 1. -/
def stC3 : HState Int := ⟨fun p => ⟨[1, 3].getD p 0, 0, 0⟩, [0, 1]⟩

/-- Empty container used for the C3 witness. -/
def stC3w : HState Int := ⟨fun _ => ⟨0, 0, 0⟩, []⟩

/-- C3, counterexample: construction over non-empty initial contents does
not establish position-field consistency.  `heap.Init` only writes index
fields via `Swap`, so records it never moves keep their prior field
values: initializing over two records already in heap order, the record
at offset 1 still carries position field 0, and following its field leads
to the other record. -/
theorem C3_counterexample :
    ¬ (∀ p ∈ (heapInit cC3 stC3).slice,
        ptrAt (heapInit cC3 stC3) (((heapInit cC3 stC3).store p).idx).toNat = p) := by
  decide

/-- C3, amended: when an index field is configured and the initial
contents are distinct records whose position fields already equal their
offsets (in particular, an empty initial slice), then after construction
and after every completed `Push` (of a record not already on the heap),
`Pop` and `Remove`, every record's position field equals its current
offset, and following any stored record's field through the slice leads
back to that record. -/
theorem C3_position_field (c : Cfg) (st0 st' : HState K) (hc : c.hasIndex = true)
    (hnd : st0.slice.Nodup) (hidx : idxOK c st0)
    (hr : ReachF c (heapInit c st0) st') :
    (∀ i, i < hLen st' → (recAt st' i).idx = Int.ofNat i) ∧
    (∀ p ∈ st'.slice, ptrAt st' ((st'.store p).idx).toNat = p) := by
  have hwf : WFidx c st' :=
    ReachF_WF c (WFidx_heapInit c st0 ⟨hnd, hidx⟩) hr
  exact ⟨hwf.2 hc, WFidx_posConsistent c st' hc hwf⟩

/-- Witness for the amended C3: one fresh push onto a freshly constructed
empty min-heap container with an index field. -/
theorem C3_witness :
    (∀ i, i < hLen (heapPushOp cC3 (heapInit cC3 stC3w) 5) →
      (recAt (heapPushOp cC3 (heapInit cC3 stC3w) 5) i).idx = Int.ofNat i) ∧
    (∀ p ∈ (heapPushOp cC3 (heapInit cC3 stC3w) 5).slice,
      ptrAt (heapPushOp cC3 (heapInit cC3 stC3w) 5)
        (((heapPushOp cC3 (heapInit cC3 stC3w) 5).store p).idx).toNat = p) :=
  C3_position_field cC3 stC3w (heapPushOp cC3 (heapInit cC3 stC3w) 5) rfl
    List.nodup_nil (fun _ i hi => absurd hi (Nat.not_lt_zero i))
    (ReachF.push (heapInit cC3 stC3w) (heapInit cC3 stC3w) 5
      (ReachF.refl (heapInit cC3 stC3w)) (by decide))

/-- Empty container state over integer keys used for claim C4. -/
def stC4 : HState Int := ⟨fun _ => ⟨0, 0, 0⟩, []⟩

/-- C4, counterexample: on a concrete empty min-heap container, the
exported `Pop` does not return a null marker; it panics (the heap driver
swaps offsets `0` and `Len-1 = -1` on the empty reflected slice before the
inner pop ever runs), exactly as the method's own documentation says.  The
claim that `Pop` on an empty heap returns a well-defined null/absent
marker rather than raising a fault is therefore false. -/
theorem C4_counterexample :
    popExported (⟨true, true⟩ : Cfg) stC4 = .error "panic: index out of range" := rfl

/-- C4, amended: calling the exported `Pop` on an empty heap raises a
fault (panic) rather than returning a marker; only the inner,
storage-level pop primitive returns the nil marker and leaves the storage
unchanged on an empty slice. -/
theorem C4_amended (c : Cfg) (st : HState K) (h : hLen st = 0) :
    popExported c st = .error "panic: index out of range" ∧
    hPopInner st = (st, none) := by
  unfold popExported hPopInner
  rw [if_pos h, if_pos h]
  exact ⟨rfl, rfl⟩

/-- Witness for the amended C4 at a concrete empty container. -/
theorem C4_witness :
    popExported (⟨true, true⟩ : Cfg) stC4 = .error "panic: index out of range" ∧
    hPopInner stC4 = (stC4, none) :=
  C4_amended ⟨true, true⟩ stC4 rfl

/-- The struct of the `ExampleTagHeap_Remove` test: field 0 is
`N int heap:"min"`, field 1 is `X int heap:"index"`. -/
def fsC5 : List SField := [⟨"min", RKind.kint, ""⟩, ⟨"index", RKind.kint, ""⟩]

/-- Store for the C5 scenario: record handles 1 to 5 carry keys
3, 1, 4, 1, 5; handle 3 is the record pushed with key 4. -/
def stC5 : HState Int := ⟨fun p => ⟨[0, 3, 1, 4, 1, 5].getD p 0, 0, 0⟩, []⟩

/-- The C5 scenario run: build the container over empty storage, push the
five records, pop once, remove record handle 3 (the key-4 record) by
reference, then pop three times; observables are the first popped key, the
value `Remove` returned, and the keys of the remaining pops. -/
def runC5 : Option (Int × Option Nat × List Int) :=
  let c : Cfg := ⟨true, true⟩
  let st1 := pushSeq c (heapInit c stC5) [1, 2, 3, 4, 5]
  match popExported c st1 with
  | .ok (st2, some p1) =>
    match removeExported c st2 (GoVal.recArg 3) with
    | .ok (st3, r) => some ((st2.store p1).key, r, popSeq c st3 3)
    | .error _ => none
  | _ => none

/-- C5: on a min-heap over an integer key with a position field (the
descriptor built from the example struct is min-heap, key field 0, index
field 1, integer comparator), pushing keys 3, 1, 4, 1, 5 and popping once
yields a record with key 1; removing the key-4 record by reference returns
the very handle passed in; and the three remaining pops return keys
1, 3, 5 in order. -/
theorem C5_remove_scenario :
    newScan fsC5 = .ok ⟨true, 0, 1, some CmpSel.cint⟩ ∧
    runC5 = some (1, some 3, [1, 3, 5]) :=
  ⟨rfl, rfl⟩

/-- C6: building a container over a record type with zero key-field
annotations in the namespace fails with a construction error, and so does
building over a type with two or more key-field annotations; in both
cases `New` propagates the error and returns no container. -/
theorem C6_key_annotation_errors (fs : List SField)
    (h : keyTagCount fs = 0 ∨ 2 ≤ keyTagCount fs) :
    ∃ e, newScan fs = .error e := by
  unfold newScan
  cases hs : scanLoop ⟨false, -1, -1, none⟩ 0 fs with
  | error e => exact ⟨e, rfl⟩
  | ok acc =>
    rcases scanLoop_key_count fs _ 0 acc hs with ⟨ha, hb⟩
    rcases h with h | h
    · have hneg : acc.keyFieldIndex < 0 := by
        by_contra hc
        push_neg at hc
        rcases hb.mp hc with hcc | hcc
        · norm_num at hcc
        · omega
      refine ⟨"struct must indicate key field", ?_⟩
      show (if acc.keyFieldIndex < 0 then (Except.error "struct must indicate key field" : Except String ScanAcc)
        else Except.ok acc) = Except.error "struct must indicate key field"
      rw [if_pos hneg]
    · exfalso
      rw [if_neg (by norm_num : ¬ (0:Int) ≤ (⟨false, -1, -1, none⟩ : ScanAcc).keyFieldIndex)] at ha
      omega

/-- Witness for C6 at the empty struct (zero key annotations). -/
theorem C6_witness : ∃ e, newScan [] = .error e :=
  C6_key_annotation_errors [] (Or.inl rfl)

/-- C7: the exported `Push` checks the argument's dynamic type before the
heap driver runs: a value of any other type faults (panic, modelled as an
error produced with no state change committed), while an argument of the
pointer-to-record type the container was built for never faults and
completes the push, growing the heap by exactly one element. -/
theorem C7_push_type_fault (c : Cfg) (st : HState K) (p : Nat) (t : String) :
    pushExported c st (GoVal.recArg p) = .ok (heapPushOp c st p) ∧
    hLen (heapPushOp c st p) = hLen st + 1 ∧
    pushExported c st (GoVal.otherArg t) = .error "invalid type for push argument" :=
  ⟨rfl, hLen_heapPushOp c st p, rfl⟩

/-- C8: when no index field was configured, the exported `Remove` panics
on its very first check, before reading the argument or touching storage;
it never returns a value. -/
theorem C8_remove_without_index (c : Cfg) (st : HState K) (u : GoVal)
    (h : c.hasIndex = false) :
    removeExported c st u = .error "remove index field not defined" := by
  unfold removeExported
  rw [h]
  rfl

/-- Witness for C8 on a concrete index-free container. -/
theorem C8_witness :
    removeExported (⟨true, false⟩ : Cfg) stC4 (GoVal.recArg 0) =
      .error "remove index field not defined" :=
  C8_remove_without_index ⟨true, false⟩ stC4 (GoVal.recArg 0) rfl

/-- Struct with an `int64` position field: an integer type that is not
Go's `int`. -/
def fsC9 : List SField := [⟨"min", RKind.kint, ""⟩, ⟨"index", RKind.kint64, ""⟩]

/-- C9, counterexample: the claim says a position field of any integer
type is accepted, but the constructor rejects an `int64` position field
with a configuration error (`reflect.Kind` must be exactly `Int`). -/
theorem C9_counterexample :
    newScan fsC9 = .error "index field must have type int" := rfl

/-- C9, amended: a position-field annotation is accepted exactly when the
annotated field's type is Go's `int` kind; any other kind, including every
other integer type, makes construction fail with an error. -/
theorem C9_amended :
    (∀ (fs : List SField) (f : SField), f ∈ fs → f.tag = "index" →
        ¬ f.kind = RKind.kint → (newScan fs).isOk = false) ∧
    (∀ k : RKind,
      (newScan [⟨"min", RKind.kint, ""⟩, ⟨"index", k, ""⟩]).isOk = true ↔ k = RKind.kint) := by
  constructor
  · intro fs f hmem htag hkind
    unfold newScan
    cases hs : scanLoop ⟨false, -1, -1, none⟩ 0 fs with
    | error e => rfl
    | ok acc => exact absurd (scanLoop_index_kint fs _ 0 acc hs f hmem htag) hkind
  · intro k
    cases k <;> decide

/-- Witness for the amended C9: an `int8` position field is rejected. -/
theorem C9_witness :
    (newScan [⟨"min", RKind.kint, ""⟩, ⟨"index", RKind.kint8, ""⟩]).isOk = false :=
  C9_amended.1 [⟨"min", RKind.kint, ""⟩, ⟨"index", RKind.kint8, ""⟩]
    ⟨"index", RKind.kint8, ""⟩ (by decide) rfl (by decide)

/-- Min-heap configuration without an index field, used for claim C10. -/
def cC10 : Cfg := ⟨true, false⟩

/-- Two-record initial contents for the C10 witness. -/
def stC10 : HState Int := ⟨fun p => ⟨[2, 7].getD p 0, 0, 0⟩, [0, 1]⟩

/-- C10: construction and any chain of completed exported calls never
write a record's key or `other` field (only an index field can be
written, through `Swap` and the inner `Push`), and when no index field is
configured no record field is written at all: the whole pointer store is
untouched and only the backing slice changes. -/
theorem C10_frame (c : Cfg) (st0 st' : HState K)
    (hr : Reach c (heapInit c st0) st') :
    (∀ q, (st'.store q).key = (st0.store q).key ∧
      (st'.store q).other = (st0.store q).other) ∧
    (c.hasIndex = false → ∀ q, st'.store q = st0.store q) := by
  constructor
  · intro q
    obtain ⟨⟨hk2, ho2⟩, _⟩ := Reach_frame c hr q
    exact ⟨hk2.trans (storeKey_heapInit c st0 q),
      ho2.trans (storeOther_heapInit c st0 q)⟩
  · intro hc q
    obtain ⟨_, hf2⟩ := Reach_frame c hr q
    exact (hf2 hc).trans (store_heapInit_false c hc st0 q)

/-- Witness for C10: construct over two records without an index field,
then push a third record; every record in the store is untouched. -/
theorem C10_witness :
    (∀ q, ((heapPushOp cC10 (heapInit cC10 stC10) 2).store q).key =
        (stC10.store q).key ∧
      ((heapPushOp cC10 (heapInit cC10 stC10) 2).store q).other =
        (stC10.store q).other) ∧
    (cC10.hasIndex = false →
      ∀ q, (heapPushOp cC10 (heapInit cC10 stC10) 2).store q = stC10.store q) :=
  C10_frame cC10 stC10 (heapPushOp cC10 (heapInit cC10 stC10) 2)
    (Reach.push (heapInit cC10 stC10) (heapInit cC10 stC10) 2
      (Reach.refl (heapInit cC10 stC10)))

end Tagheap
